import Mathlib

/-!
# hackpad: archive extraction and the single-flight process runner

A shallow embedding of `main.go` (the zip extractor with its zip-slip guard)
and of `cmd/editor/main.go` (`startProcess`, `runProcess`, `runPlayground`).

Go strings are modelled as `List Char`.  The path functions only ever test a
character against `/` and `.`, so the character-level model and Go's
byte-level one agree.
-/

deriving instance DecidableEq for Except

namespace Hackpad

/-! ## `path/filepath` on a slash-separated target (`GOOS=js`) -/

/-- The constant `os.PathSeparator`. -/
def PathSeparator : Char := '/'

/-- The function `os.IsPathSeparator`. -/
def IsPathSeparator (c : Char) : Bool := c == PathSeparator

/-- True when the read position is at the end of the path or at a separator:
the test `r == n || os.IsPathSeparator(path[r])` on the unread suffix. -/
def atEndOrSep : List Char → Bool
  | [] => true
  | c :: _ => IsPathSeparator c

/-- The `..` case of `filepath.Clean` when `out.w > dotdot`:
`out.w--; for out.w > dotdot && !os.IsPathSeparator(out.index(out.w)) { out.w-- }`.
The buffer is kept last byte first, so `out.w--` drops the head, and the
byte then found at `out.index(out.w)` is the one just dropped. -/
def backtrack (dotdot : Nat) : List Char → List Char
  | [] => []
  | c :: out => if dotdot < out.length && !IsPathSeparator c then backtrack dotdot out else out

/-- The inner loop of the default case of `filepath.Clean`:
`for ; r < n && !os.IsPathSeparator(path[r]); r++ { out.append(path[r]) }`.
Returns the unread suffix and the buffer (last byte first). -/
def copyElem : List Char → List Char → List Char × List Char
  | [], out => ([], out)
  | c :: rest, out => if IsPathSeparator c then (c :: rest, out) else copyElem rest (c :: out)

/-- The main loop `for r < n { switch ... }` of `filepath.Clean`.  The read
position `r` is the unread suffix `path[r:]`, the lazy buffer is the list of
the bytes written so far, last byte first (`out.w` is its length).  One unit
of fuel is spent per iteration; `none` means the fuel ran out. -/
def cleanLoop (rooted : Bool) : Nat → List Char → List Char → Nat → Option (List Char)
  | 0, _, _, _ => none
  | fuel + 1, path, out, dotdot =>
    match path with
    | [] => some out
    | c :: rest =>
      if IsPathSeparator c then
        -- empty path element
        cleanLoop rooted fuel rest out dotdot
      else if c == '.' && atEndOrSep rest then
        -- . element
        cleanLoop rooted fuel rest out dotdot
      else if c == '.' && rest.head? == some '.' && atEndOrSep rest.tail then
        -- .. element: remove to last separator
        if dotdot < out.length then
          cleanLoop rooted fuel rest.tail (backtrack dotdot out) dotdot
        else if !rooted then
          let out1 := if 0 < out.length then PathSeparator :: out else out
          let out2 := '.' :: '.' :: out1
          cleanLoop rooted fuel rest.tail out2 out2.length
        else
          cleanLoop rooted fuel rest.tail out dotdot
      else
        -- real path element: add slash if needed, then copy the element
        let out1 :=
          if (rooted && out.length != 1) || (!rooted && out.length != 0) then PathSeparator :: out
          else out
        let p := copyElem (c :: rest) out1
        cleanLoop rooted fuel p.1 p.2 dotdot

/-- The function `filepath.Clean` with an explicit fuel for its main loop. -/
def cleanFuel (fuel : Nat) (path : List Char) : Option (List Char) :=
  match path with
  | [] => some ['.']
  | c :: rest =>
    let rooted := IsPathSeparator c
    let r :=
      if rooted then cleanLoop rooted fuel rest [PathSeparator] 1
      else cleanLoop rooted fuel (c :: rest) [] 0
    -- Turn empty string into "."
    r.map fun out => if out.length == 0 then ['.'] else out.reverse

/-- The function `filepath.Clean`.  Every iteration of the main loop reads at
least one byte, so `len(path) + 1` units of fuel always suffice
(`cleanFuel_isSome`); the default is never taken. -/
def Clean (path : List Char) : List Char :=
  (cleanFuel (path.length + 1) path).getD []

/-- The function `filepath.Join` for two elements, as `validateZipPath` calls
it: the elements from the first non-empty one on are joined with the
separator and cleaned; when both are empty the result is empty. -/
def Join (a b : List Char) : List Char :=
  if a ≠ [] then Clean (a ++ PathSeparator :: b)
  else if b ≠ [] then Clean b
  else []

/-- The function `strings.HasPrefix`. -/
def HasPrefix (s pre : List Char) : Bool := pre.isPrefixOf s

/-! ## `main.go`: the zip-slip guard -/

/-- Errors of the extractor.  `illegalPath p` is
`errors.Errorf("%s: illegal zip file path", filePath)`; `os e` is an error
returned by the operating system or by the archive reader. -/
inductive Error where
  | illegalPath (filePath : List Char)
  | os (code : String)
  deriving DecidableEq, Repr

/-- The function `validateZipPath` of `main.go`. -/
def validateZipPath (zipPath destDir : List Char) : Except Error (List Char) :=
  let destPrefix := Clean destDir ++ [PathSeparator]
  let filePath := Join destPrefix zipPath
  if !HasPrefix filePath destPrefix then
    .error (.illegalPath filePath)
  else
    .ok filePath

/-! ## The operating system seen by `main.go`

The `os` and `io/ioutil` calls of the extractor act on a POSIX-like file
system.  A node is named by the cleaned form of the path it is reached by;
its parent is the path up to the last separator.  The file system lists the
nodes the process can reach, all taken to belong to the user of the process:
their owner permission bits decide what the process may do, unless it is
privileged.  A call can fail for the path (missing or wrong kind of node,
existing node, name the system cannot take), for permissions, and for
reasons of the environment that the world lists call by call (no space,
read-only file system, input/output error). -/

/-- A node of the file system: a directory with its permission bits, or a
regular file with its permission bits and content. -/
inductive Node where
  | dir (perm : Nat)
  | file (perm : Nat) (data : List Nat)
  deriving DecidableEq, Repr

/-- The permission bits of a node. -/
def Node.perm : Node → Nat
  | .dir p => p
  | .file p _ => p

/-- A call made to the operating system, as recorded in the world. -/
inductive OsCall where
  | stat (name : List Char)
  | mkdir (name : List Char) (perm : Nat)
  | writeFile (name : List Char) (data : List Nat) (perm : Nat)
  | readDir (name : List Char)
  deriving DecidableEq, Repr

/-- A value printed by `fmt.Println` in `run`. -/
inductive Printed where
  | err (e : Option Error)
  | name (n : List Char)
  | dirPerm (perm : Nat)
  deriving DecidableEq, Repr

/-- The world of the extractor: the file system (an association list from
cleaned path to node), the process umask, whether the process is privileged
(permission bits do not bind it), the calls the environment refuses for a
reason of its own with the error it gives, the calls made so far (oldest
first), and the values printed so far (oldest first). -/
structure World where
  fs : List (List Char × Node)
  umask : Nat
  privileged : Bool
  refused : List (OsCall × Error)
  calls : List OsCall
  printed : List Printed
  deriving DecidableEq, Repr

/-- The node a path names, if any. -/
def World.node (w : World) (name : List Char) : Option Node :=
  w.fs.lookup (Clean name)

/-- The world with the node at the (cleaned) path `key` set to `n`. -/
def World.put (w : World) (key : List Char) (n : Node) : World :=
  { w with fs := (key, n) :: w.fs.filter fun e => e.1 != key }

/-- The world with one more recorded call. -/
def World.log (w : World) (c : OsCall) : World :=
  { w with calls := w.calls ++ [c] }

/-- The world with one more printed value. -/
def World.print (w : World) (p : Printed) : World :=
  { w with printed := w.printed ++ [p] }

/-- The part of a cleaned path after its last separator, given last byte first. -/
def baseRev : List Char → List Char
  | [] => []
  | c :: rest => if IsPathSeparator c then [] else c :: baseRev rest

/-- The last element of a cleaned path. -/
def baseName (key : List Char) : List Char := (baseRev key.reverse).reverse

/-- The directory holding the node named by a cleaned path: the path up to
its last separator, `/` when that separator is the leading one, and `.` when
there is none. -/
def parentDir (key : List Char) : List Char :=
  let up := (key.reverse.dropWhile fun c => !IsPathSeparator c).reverse
  match up with
  | [] => ['.']
  | [c] => [c]
  | _ => up.dropLast

/-- Permission bits as created under the process umask. -/
def applyUmask (umask perm : Nat) : Nat := perm &&& (0o777 ^^^ (umask &&& 0o777))

/-- True when the process may make or remove entries in a directory with
the permission bits `perm`: it is privileged, or the owner may write and
search the directory. -/
def World.mayWrite (w : World) (perm : Nat) : Bool :=
  w.privileged || (perm &&& 0o300 == 0o300)

/-- True when the process may overwrite a file with the permission bits
`perm`: it is privileged, or the owner may write the file. -/
def World.mayModify (w : World) (perm : Nat) : Bool :=
  w.privileged || (perm &&& 0o200 == 0o200)

/-- True when the process may list a directory with the permission bits
`perm`: it is privileged, or the owner may read the directory. -/
def World.mayRead (w : World) (perm : Nat) : Bool :=
  w.privileged || (perm &&& 0o400 == 0o400)

/-- The error the environment has for a call it refuses for a reason of its
own, if it refuses it. -/
def World.refusal (w : World) (c : OsCall) : Option Error :=
  w.refused.lookup c

/-- The number of bytes of a character in UTF-8. -/
def utf8Len (c : Char) : Nat :=
  if c.toNat < 0x80 then 1 else if c.toNat < 0x800 then 2 else if c.toNat < 0x10000 then 3 else 4

/-- The number of bytes of a path. -/
def byteLen (name : List Char) : Nat := (name.map utf8Len).sum

/-- The number of bytes of the longest element of a path, `run` bytes of the
element under way being read already. -/
def longestElem : Nat → List Char → Nat
  | run, [] => run
  | run, c :: rest =>
    if IsPathSeparator c then max run (longestElem 0 rest) else longestElem (run + utf8Len c) rest

/-- The limit `NAME_MAX` on the bytes of one path element. -/
def NameMax : Nat := 255

/-- The limit `PATH_MAX` on the bytes of a path, its terminating NUL included. -/
def PathMax : Nat := 4096

/-- The error for a name the system cannot take: `EINVAL` for a name with a
NUL byte, `ENAMETOOLONG` for a path of `PATH_MAX` bytes or more or with an
element of more than `NAME_MAX` bytes. -/
def nameError (name : List Char) : Option Error :=
  if name.contains (Char.ofNat 0) then some (.os "EINVAL")
  else if PathMax ≤ byteLen name then some (.os "ENAMETOOLONG")
  else if NameMax < longestElem 0 name then some (.os "ENAMETOOLONG")
  else none

/-- The function `os.Stat`, reduced to the node it finds. -/
def osStat (name : List Char) (w : World) : Except Error Node × World :=
  let w1 := w.log (.stat name)
  match w1.node name with
  | some n =>
    match w1.refusal (.stat name) with
    | some e => (.error e, w1)
    | none => (.ok n, w1)
  | none =>
    match nameError name with
    | some e => (.error e, w1)
    | none => (.error (.os "ENOENT"), w1)

/-- A node made at the path `key` (the cleaned form of `name`), which names
no node yet, by the call `c`: fails when the system cannot take the name,
when the parent is not an existing directory, when the process may not write
the parent, and when the environment refuses the call. -/
def World.create (w : World) (c : OsCall) (name key : List Char) (n : Node) :
    Option Error × World :=
  match nameError name with
  | some e => (some e, w)
  | none =>
    match w.fs.lookup (parentDir key) with
    | none => (some (.os "ENOENT"), w)
    | some (.file _ _) => (some (.os "ENOTDIR"), w)
    | some (.dir p) =>
      if !w.mayWrite p then (some (.os "EACCES"), w)
      else
        match w.refusal c with
        | some e => (some e, w)
        | none => (none, w.put key n)

/-- The function `os.Mkdir`: fails when the path exists already, otherwise
makes the directory with the permission bits `perm` (before umask), or fails
as the making of a node can. -/
def osMkdir (name : List Char) (perm : Nat) (w : World) : Option Error × World :=
  let w1 := w.log (.mkdir name perm)
  let key := Clean name
  match w1.fs.lookup key with
  | some _ => (some (.os "EEXIST"), w1)
  | none => w1.create (.mkdir name perm) name key (.dir (applyUmask w1.umask perm))

/-- The function `ioutil.WriteFile`: writes `data` to the named file.  When
the file exists it is truncated, its permissions unchanged, if the process
may overwrite it; when it does not it is made with the permission bits `perm`
(before umask), or the call fails as the making of a node can. -/
def WriteFile (name : List Char) (data : List Nat) (perm : Nat) (w : World) :
    Option Error × World :=
  let w1 := w.log (.writeFile name data perm)
  let key := Clean name
  match w1.fs.lookup key with
  | some (.dir _) => (some (.os "EISDIR"), w1)
  | some (.file p _) =>
    if !w1.mayModify p then (some (.os "EACCES"), w1)
    else
      match w1.refusal (.writeFile name data perm) with
      | some e => (some e, w1)
      | none => (none, w1.put key (.file p data))
  | none =>
    w1.create (.writeFile name data perm) name key (.file (applyUmask w1.umask perm) data)

/-- The function `os.MkdirAll` with the recursion on the parent bounded by
`fuel`: nothing to do when the path is a directory already, an error when
it is a file, otherwise the parent is made first and then the path. -/
def mkdirAllFuel : Nat → List Char → Nat → World → Option Error × World
  | 0, _, _, w => (some (.os "ELOOP"), w)
  | fuel + 1, name, perm, w =>
    match osStat name w with
    | (.ok (.dir _), w1) => (none, w1)
    | (.ok (.file _ _), w1) => (some (.os "ENOTDIR"), w1)
    | (.error _, w1) =>
      let key := Clean name
      let parent := parentDir key
      if parent == key then osMkdir key perm w1
      else
        match mkdirAllFuel fuel parent perm w1 with
        | (some e, w2) => (some e, w2)
        | (none, w2) => osMkdir key perm w2

/-- The function `os.MkdirAll`. -/
def MkdirAll (name : List Char) (perm : Nat) (w : World) : Option Error × World :=
  mkdirAllFuel ((Clean name).length + 1) name perm w

/-- The function `ioutil.ReadDir`, reduced to the names of the entries of
the directory, sorted by name; the process must be allowed to list it. -/
def ReadDir (name : List Char) (w : World) : Except Error (List (List Char)) × World :=
  let w1 := w.log (.readDir name)
  let key := Clean name
  match w1.fs.lookup key with
  | some (.dir p) =>
    if !w1.mayRead p then (.error (.os "EACCES"), w1)
    else
      match w1.refusal (.readDir name) with
      | some e => (.error e, w1)
      | none =>
        let kids := w1.fs.filter fun e => parentDir e.1 == key && e.1 != key
        (.ok ((kids.map fun e => baseName e.1).insertionSort fun a b => a ≤ b), w1)
  | some (.file _ _) => (.error (.os "ENOTDIR"), w1)
  | none =>
    match nameError name with
    | some e => (.error e, w1)
    | none => (.error (.os "ENOENT"), w1)

/-! ## `main.go`: the extractor -/

/-- An entry of the archive (`*zip.File`): its name as stored, whether
`FileInfo().IsDir()` holds, the permission bits of `Mode()`, and what
`Open` followed by `ioutil.ReadAll` yields. -/
structure ZipFile where
  Name : List Char
  IsDir : Bool
  Mode : Nat
  Body : Except Error (List Nat)
  deriving DecidableEq, Repr

/-- The function `unzipFile` of `main.go`. -/
def unzipFile (file : ZipFile) (dest : List Char) (w : World) : Option Error × World :=
  if file.IsDir then
    osMkdir dest file.Mode w
  else
    match file.Body with
    | .error err => (some err, w)
    | .ok buf => WriteFile dest buf file.Mode w

/-- The function `unzipFiles` of `main.go`. -/
def unzipFiles (files : List ZipFile) (destDir : List Char) (w : World) : Option Error × World :=
  match files with
  | [] => (none, w)
  | f :: rest =>
    match validateZipPath f.Name destDir with
    | .error err => (some err, w)
    | .ok filePath =>
      match unzipFile f filePath w with
      | (some err, w1) => (some err, w1)
      | (none, w1) => unzipFiles rest destDir w1

/-- The function `unzip` of `main.go`.  The archive reader `zip.NewReader`
is a parameter: it maps the bytes and the declared size to the entries or to
an error. -/
def unzip (NewReader : List Nat → Nat → Except Error (List ZipFile))
    (r : List Nat) (size : Nat) (outPath : List Char) (w : World) : Option Error × World :=
  match MkdirAll outPath 0o750 w with
  | (some err, w1) => (some err, w1)
  | (none, w1) =>
    match NewReader r size with
    | .error err => (some err, w1)
    | .ok z => unzipFiles z outPath w1

/-- The function `makeTestModule` of `main.go`; the two file contents are
kept abstract. -/
def makeTestModule (mainGo goMod : List Nat) (w : World) : Option Error × World :=
  match WriteFile "main.go".toList mainGo 0o600 w with
  | (some err, w1) => (some err, w1)
  | (none, w1) => WriteFile "go.mod".toList goMod 0o600 w1

/-- What the environment of `run` supplies: the result of
`http.Get("/go.zip")` (on success, the result of reading the body), the
archive reader, and the two literal file contents of `makeTestModule`. -/
structure Env where
  Get : Except Error (Except Error (List Nat))
  NewReader : List Nat → Nat → Except Error (List ZipFile)
  mainGo : List Nat
  goMod : List Nat

/-- The function `run` of `main.go`. -/
def run (env : Env) (w : World) : Option Error × World :=
  match env.Get with
  | .error err => (some err, w)
  | .ok body =>
    match body with
    | .error err => (some err, w)
    | .ok buf =>
      let (err, w1) := unzip env.NewReader buf buf.length "/go".toList w
      let w2 := w1.print (.err err)
      match ReadDir "/go".toList w2 with
      | (.error err, w3) => (some err, w3.print (.err (some err)))
      | (.ok dir, w3) =>
        let w4 := dir.foldl (fun acc f => acc.print (.name f)) w3
        match osStat "/go".toList w4 with
        | (.error err, w5) => (some err, w5)
        | (.ok info, w5) =>
          let w6 := w5.print (.dirPerm info.perm)
          makeTestModule env.mainGo env.goMod w6

/-! ## `cmd/editor/main.go`: the single-flight process runner -/

/-- The two sinks `startProcess` makes over the console element:
`newElementWriter(consoleElem, "")` and `newElementWriter(consoleElem, "stderr")`. -/
inductive Sink where
  | stdout
  | stderr
  deriving DecidableEq, Repr

/-- What happens on the page, in order.  An event of `startProcess` is
recorded with the number of the call it belongs to, an event of a future
(`resolve`, `reject`, `invoke`) with no call. -/
inductive Event where
  | cas (won : Bool)
  | classAdd
  | write (sink : Sink) (text : List Char)
  | start (name : List Char) (args : List (List Char))
  | store
  | classRemove
  | resolve (future : Nat)
  | reject (future : Nat)
  | invoke (future : Nat)
  deriving DecidableEq, Repr

/-- The package-level state of the editor: the atomic flag `showLoading`,
whether `loadingElem` carries the class `loading`, and the events so far
(oldest first). -/
structure Page where
  showLoading : Bool
  loading : Bool
  trace : List (Option Nat × Event)
  deriving DecidableEq, Repr

/-- The page with one more event of call `me`. -/
def Page.emit (p : Page) (me : Nat) (e : Event) : Page :=
  { p with trace := p.trace ++ [(some me, e)] }

/-- The page with one more event of a future. -/
def Page.settle (p : Page) (e : Event) : Page :=
  { p with trace := p.trace ++ [(none, e)] }

/-- Modelled from the spec: the element writer (`newElementWriter`, not in
the sources at hand).  Each `Write`/`WriteString` call appends its payload,
tagged with the sink, to the rendering destination. -/
def Page.write (p : Page) (me : Nat) (sink : Sink) (text : List Char) : Page :=
  p.emit me (.write sink text)

/-- The page after a running command has written `output` through the sinks
wired to `cmd.Stdout` and `cmd.Stderr`. -/
def Page.writeAll (p : Page) (me : Nat) (output : List (Sink × List Char)) : Page :=
  output.foldl (fun q l => q.write me l.1 l.2) p

/-- What the environment makes of one command: the error of `cmd.Start`
(if any); when it started, what the process writes to its two streams and
the error of `cmd.Wait` (if any, a non-zero exit included). -/
structure Outcome where
  startErr : Option (List Char)
  output : List (Sink × List Char)
  waitErr : Option (List Char)
  deriving DecidableEq, Repr

/-- The line `fmt.Sprintf("$ %s %s\n", name, strings.Join(args, " "))`. -/
def invocationLine (name : List Char) (args : List (List Char)) : List Char :=
  "$ ".toList ++ name ++ " ".toList ++ " ".toList.intercalate args ++ "\n".toList

/-- The deferred function of `startProcess`:
`showLoading.Store(false)` and then the removal of the class `loading`. -/
def release (me : Nat) (p : Page) : Page :=
  let p1 := { p with showLoading := false }.emit me .store
  { p1 with loading := false }.emit me .classRemove

/-- The function `startProcess` of `cmd/editor/main.go`, run without
interruption as call number `me` against the outcome `o` of its command. -/
def startProcess (me : Nat) (o : Outcome) (name : List Char) (args : List (List Char))
    (p : Page) : Bool × Page :=
  if p.showLoading != false then
    (false, p.emit me (.cas false))
  else
    let p1 := { p with showLoading := true }.emit me (.cas true)
    let p2 := { p1 with loading := true }.emit me .classAdd
    let p3 := p2.write me .stdout (invocationLine name args)
    match o.startErr with
    | some err =>
      let p4 := p3.write me .stderr ("Failed to start process: ".toList ++ err ++ "\n".toList)
      (false, release me p4)
    | none =>
      let p4 := (p3.emit me (.start name args)).writeAll me o.output
      match o.waitErr with
      | some err =>
        let p5 := p4.write me .stderr (err ++ "\n".toList)
        (false, release me p5)
      | none => (true, release me p4)

/-! ### `startProcess` step by step, for interleaved calls -/

/-- Where a call of `startProcess` stands. -/
inductive PC where
  | entry
  | acquired
  | added
  | announced
  | startFailed (err : List Char)
  | running
  | waitFailed (err : List Char)
  | deferred (success : Bool)
  | stored (success : Bool)
  | returned (success : Bool)
  deriving DecidableEq, Repr

/-- True between the successful CAS of a call and its `showLoading.Store(false)`. -/
def PC.holding : PC → Bool
  | .acquired | .added | .announced | .startFailed _ | .running | .waitFailed _ | .deferred _ => true
  | .entry | .stored _ | .returned _ => false

/-- True while the command of the call is running: between the return of
`cmd.Start` without error and the return of `cmd.Wait`. -/
def PC.inFlight : PC → Bool
  | .running => true
  | _ => false

/-- A call of `startProcess`: its arguments, what the environment makes of
its command, and where it stands. -/
structure Call where
  name : List Char
  args : List (List Char)
  outcome : Outcome
  pc : PC
  deriving DecidableEq, Repr

/-- One step of call number `me`: the next statement of `startProcess`.
`none` when the call has returned. -/
def stepCall (me : Nat) (c : Call) (p : Page) : Option (Call × Page) :=
  match c.pc with
  | .entry =>
    if p.showLoading != false then
      some ({ c with pc := .returned false }, p.emit me (.cas false))
    else
      some ({ c with pc := .acquired }, { p with showLoading := true }.emit me (.cas true))
  | .acquired => some ({ c with pc := .added }, { p with loading := true }.emit me .classAdd)
  | .added =>
    some ({ c with pc := .announced }, p.write me .stdout (invocationLine c.name c.args))
  | .announced =>
    match c.outcome.startErr with
    | some err => some ({ c with pc := .startFailed err }, p)
    | none => some ({ c with pc := .running }, p.emit me (.start c.name c.args))
  | .startFailed err =>
    some ({ c with pc := .deferred false },
      p.write me .stderr ("Failed to start process: ".toList ++ err ++ "\n".toList))
  | .running =>
    match c.outcome.waitErr with
    | some err => some ({ c with pc := .waitFailed err }, p.writeAll me c.outcome.output)
    | none => some ({ c with pc := .deferred true }, p.writeAll me c.outcome.output)
  | .waitFailed err =>
    some ({ c with pc := .deferred false }, p.write me .stderr (err ++ "\n".toList))
  | .deferred ok =>
    some ({ c with pc := .stored ok }, { p with showLoading := false }.emit me .store)
  | .stored ok =>
    some ({ c with pc := .returned ok }, { p with loading := false }.emit me .classRemove)
  | .returned _ => none

/-- Call `me` run on its own for at most `n` steps. -/
def runCall (me : Nat) : Nat → Call → Page → Call × Page
  | 0, c, p => (c, p)
  | n + 1, c, p =>
    match stepCall me c p with
    | none => (c, p)
    | some (c1, p1) => runCall me n c1 p1

/-- The calls of `startProcess` under way and the page they share. -/
structure Sys where
  calls : List Call
  page : Page
  deriving DecidableEq, Repr

/-- The system after call number `i` takes its next step; `none` when there
is no such call or it has returned. -/
def Sys.step (s : Sys) (i : Nat) : Option Sys :=
  match s.calls[i]? with
  | none => none
  | some c =>
    match stepCall i c s.page with
    | none => none
    | some (c1, p1) => some { calls := s.calls.set i c1, page := p1 }

/-- The system after the calls named by `sched` have stepped in that order. -/
def Sys.steps (s : Sys) : List Nat → Option Sys
  | [] => some s
  | i :: sched =>
    match s.step i with
    | none => none
    | some s1 => s1.steps sched

/-- The initial system: every call is about to do its CAS, `showLoading` is
false and nothing has happened. -/
def Sys.init (cmds : List (List Char × List (List Char) × Outcome)) : Sys :=
  { calls := cmds.map fun c => { name := c.1, args := c.2.1, outcome := c.2.2, pc := .entry },
    page := { showLoading := false, loading := false, trace := [] } }

/-- The states reached from `s0` by interleaving the steps of its calls in
any order. -/
inductive Reachable (s0 : Sys) : Sys → Prop where
  | init : Reachable s0 s0
  | step (s s1 : Sys) (i : Nat) : Reachable s0 s → s.step i = some s1 → Reachable s0 s1

/-- The number of calls between their successful CAS and their release. -/
def Sys.holders (s : Sys) : Nat := s.calls.countP fun c => c.pc.holding

/-- The number of commands running. -/
def Sys.inFlight (s : Sys) : Nat := s.calls.countP fun c => c.pc.inFlight

/-! ## `cmd/editor/main.go`: futures and the build-then-run pipeline -/

/-- Modelled from the spec: the state of a future of the package
`internal/promise` (not in the sources at hand): created pending, it
settles once, to resolved or to rejected. -/
inductive FutureState where
  | pending
  | resolved
  | rejected
  deriving DecidableEq, Repr

/-- A continuation given to `Then`.  The one of `runPlayground` is
`func(_ js.Value) interface{} { return runProcess("./playground") }`. -/
inductive Continuation where
  | runProcess (name : List Char) (args : List (List Char))
  deriving DecidableEq, Repr

/-- Modelled from the spec: a future of the package `internal/promise`: its
state and the continuation attached by `Then`, if any. -/
structure Future where
  state : FutureState
  continuation : Option Continuation
  deriving DecidableEq, Repr

/-- The body `go func() { success := startProcess(name, args...); if success
{ resolve(nil) } else { reject(nil) } }()` of `runProcess`, waiting to run,
with the future its `resolve` and `reject` belong to. -/
structure Goroutine where
  future : Nat
  name : List Char
  args : List (List Char)
  deriving DecidableEq, Repr

/-- The state of the pipeline: the page, the futures made so far (a future
is named by its index), the goroutines started and not yet run, and the
number of `startProcess` calls made so far. -/
structure Pipe where
  page : Page
  futures : List Future
  ready : List Goroutine
  calls : Nat
  deriving DecidableEq, Repr

/-- Modelled from the spec: `promise.New` makes a pending future without
continuation and returns its name. -/
def promiseNew (s : Pipe) : Nat × Pipe :=
  (s.futures.length, { s with futures := s.futures ++ [{ state := .pending, continuation := none }] })

/-- The function `runProcess` of `cmd/editor/main.go`: makes a future,
starts the goroutine that will settle it, and returns the future. -/
def runProcess (name : List Char) (args : List (List Char)) (s : Pipe) : Nat × Pipe :=
  let (prom, s1) := promiseNew s
  (prom, { s1 with ready := s1.ready ++ [{ future := prom, name := name, args := args }] })

/-- A continuation invoked for future `f`. -/
def invoke (f : Nat) (k : Continuation) (s : Pipe) : Pipe :=
  let s1 := { s with page := s.page.settle (.invoke f) }
  match k with
  | .runProcess name args => (runProcess name args s1).2

/-- Modelled from the spec: `resolve` settles a pending future to resolved
and invokes its continuation, if one is attached; on a settled future it
does nothing. -/
def resolve (f : Nat) (s : Pipe) : Pipe :=
  match s.futures[f]? with
  | some { state := .pending, continuation := k } =>
    let s1 := { s with futures := s.futures.set f { state := .resolved, continuation := k },
                       page := s.page.settle (.resolve f) }
    match k with
    | some k => invoke f k s1
    | none => s1
  | _ => s

/-- Modelled from the spec: `reject` settles a pending future to rejected
without invoking its continuation; on a settled future it does nothing. -/
def reject (f : Nat) (s : Pipe) : Pipe :=
  match s.futures[f]? with
  | some { state := .pending, continuation := k } =>
    { s with futures := s.futures.set f { state := .rejected, continuation := k },
             page := s.page.settle (.reject f) }
  | _ => s

/-- Modelled from the spec: `Then` attaches the continuation to a pending
future, invokes it without delay on a resolved one, and drops it on a
rejected one. -/
def Then (f : Nat) (k : Continuation) (s : Pipe) : Pipe :=
  match s.futures[f]? with
  | some { state := .pending, continuation := _ } =>
    { s with futures := s.futures.set f { state := .pending, continuation := some k } }
  | some { state := .resolved, continuation := _ } => invoke f k s
  | _ => s

/-- One goroutine of `runProcess` run to its end against the outcome `o` of
its command. -/
def runGoroutine (o : Outcome) (g : Goroutine) (s : Pipe) : Pipe :=
  let (success, page) := startProcess s.calls o g.name g.args s.page
  let s1 := { s with page := page }
  let s2 := if success then resolve g.future s1 else reject g.future s1
  { s2 with calls := s2.calls + 1 }

/-- The goroutines waiting to run are run in the order they were started,
each against the next of the given outcomes, until either list is empty. -/
def schedule : List Outcome → Pipe → Pipe
  | [], s => s
  | o :: os, s =>
    match s.ready with
    | [] => s
    | g :: rest => schedule os (runGoroutine o g { s with ready := rest })

/-- The function `runPlayground` of `cmd/editor/main.go`, with the point at
which the build goroutine runs made explicit: when `early` holds it runs to
its end (against `build`) between the return of `runProcess` and the call of
`Then`, otherwise after `Then`. -/
def runPlaygroundAt (early : Bool) (build : Outcome) (s : Pipe) : Pipe :=
  let (prom, s1) := runProcess "go".toList ["build".toList, "-v".toList, ".".toList] s
  let k := Continuation.runProcess "./playground".toList []
  if early then Then prom k (schedule [build] s1)
  else schedule [build] (Then prom k s1)

/-- The click on `run`: `runPlayground`, then every goroutine it leads to,
the build against `build` and the run, if it comes to that, against `exec`. -/
def playground (early : Bool) (build exec : Outcome) (s : Pipe) : Pipe :=
  schedule [exec] (runPlaygroundAt early build s)

/-- The pipeline before the click: nothing has happened. -/
def Pipe.init : Pipe :=
  { page := { showLoading := false, loading := false, trace := [] },
    futures := [], ready := [], calls := 0 }

/-! ## Auxiliary definitions used in the statements -/

/-- The one call to the operating system that extracting entry `f` makes
when its name is valid and its body can be read. -/
def entryCall (destDir : List Char) (f : ZipFile) : List OsCall :=
  match validateZipPath f.Name destDir, f.IsDir, f.Body with
  | .ok dest, true, _ => [.mkdir dest f.Mode]
  | .ok dest, false, .ok buf => [.writeFile dest buf f.Mode]
  | _, _, _ => []

/-- The diagnostic line `startProcess` writes for an outcome that is not a
success. -/
def diagnostic (o : Outcome) : Option (List Char) :=
  match o.startErr, o.waitErr with
  | some err, _ => some ("Failed to start process: ".toList ++ err ++ "\n".toList)
  | none, some err => some (err ++ "\n".toList)
  | none, none => none

/-- Call `me` stepped exactly `n` times on its own; `none` when it returns
before that. -/
def stepN (me : Nat) : Nat → Call → Page → Option (Call × Page)
  | 0, c, p => some (c, p)
  | n + 1, c, p =>
    match stepCall me c p with
    | none => none
    | some (c1, p1) => stepN me n c1 p1

/-- The invariant of the runner: as many calls hold the flag as the flag says. -/
def Sys.Inv (s : Sys) : Prop := s.holders = if s.page.showLoading then 1 else 0

/-- The page after the click on `run`: the build's `startProcess`, then
either the rejection of its future, or its resolution, the invocation of the
continuation, the run's `startProcess` and the settlement of its future. -/
def pageAfter (build exec : Outcome) (s : Pipe) : Page :=
  let f := s.futures.length
  let b := startProcess s.calls build "go".toList ["build".toList, "-v".toList, ".".toList] s.page
  if b.1 then
    let p1 := (b.2.settle (.resolve f)).settle (.invoke f)
    let r := startProcess (s.calls + 1) exec "./playground".toList [] p1
    r.2.settle (if r.1 then .resolve (f + 1) else .reject (f + 1))
  else
    b.2.settle (.reject f)

/-! ## Path elements: the words in which the claims about paths are stated -/

/-- The elements of a path: what lies between its separators (the empty
path has one empty element). -/
def splitSep : List Char → List (List Char)
  | [] => [[]]
  | c :: cs =>
    if IsPathSeparator c then [] :: splitSep cs
    else
      match splitSep cs with
      | [] => [[c]]
      | s :: ss => (c :: s) :: ss

/-- A path read element by element: the number of leading `..` elements
that could not be resolved, and the named elements after them, last first. -/
structure Lexical where
  dots : Nat
  segs : List (List Char)
  deriving DecidableEq, Repr

/-- One element read: an empty element and `.` change nothing, `..` drops
the last named element (or, when there is none, is kept in a relative path
and dropped in a rooted one), any other element is added. -/
def Lexical.push (rooted : Bool) (st : Lexical) (s : List Char) : Lexical :=
  if s = [] ∨ s = ['.'] then st
  else if s = ['.', '.'] then
    match st.segs with
    | _ :: rest => { st with segs := rest }
    | [] => if rooted then st else { st with dots := st.dots + 1 }
  else { st with segs := s :: st.segs }

/-- A whole path read from the state `st`. -/
def Lexical.read (rooted : Bool) (st : Lexical) (path : List Char) : Lexical :=
  (splitSep path).foldl (Lexical.push rooted) st

/-- The leading part of a cleaned path, last byte first: the root `/` of a
rooted path, the `..` elements of a relative one. -/
def dotsRev (rooted : Bool) : Nat → List Char
  | 0 => if rooted then [PathSeparator] else []
  | d + 1 =>
    if rooted then [PathSeparator]
    else '.' :: '.' :: (if 0 < (dotsRev rooted d).length then PathSeparator :: dotsRev rooted d
                        else dotsRev rooted d)

/-- The buffer with the separator that precedes a further element. -/
def addSep (rooted : Bool) (out : List Char) : List Char :=
  if (rooted && out.length != 1) || (!rooted && out.length != 0) then PathSeparator :: out
  else out

/-- The cleaned path of a state, last byte first. -/
def renderRev (rooted : Bool) (d : Nat) : List (List Char) → List Char
  | [] => dotsRev rooted d
  | s :: segs => s.reverse ++ addSep rooted (renderRev rooted d segs)

/-- The cleaned path of a state: the buffer read forwards, `.` when it is empty. -/
def Lexical.path (rooted : Bool) (st : Lexical) : List Char :=
  let out := renderRev rooted st.dots st.segs
  if out.length == 0 then ['.'] else out.reverse

/-- The named elements of a state are not empty and hold no separator. -/
def Lexical.Valid (st : Lexical) : Prop :=
  ∀ s ∈ st.segs, s ≠ [] ∧ PathSeparator ∉ s

/-- A state as reading a path yields it: a rooted path keeps no `..`, and
every named element is a name: not empty, not `.`, not `..`, without
separator. -/
def Lexical.Canon (rooted : Bool) (st : Lexical) : Prop :=
  (rooted = true → st.dots = 0) ∧
  ∀ s ∈ st.segs, s ≠ [] ∧ s ≠ ['.'] ∧ s ≠ ['.', '.'] ∧ PathSeparator ∉ s

/-- The elements of the cleaned path of a state, first to last: its `..`
elements, then its named elements. -/
def Lexical.elems (st : Lexical) : List (List Char) :=
  List.replicate st.dots ['.', '.'] ++ st.segs.reverse

/-- The elements joined by separators. -/
def joinSep : List (List Char) → List Char
  | [] => []
  | [s] => s
  | s :: t :: rest => s ++ PathSeparator :: joinSep (t :: rest)

/-- The cleaned path written forwards: the root of a rooted path, then the
elements joined by separators. -/
def forward (rooted : Bool) (elems : List (List Char)) : List Char :=
  (if rooted then [PathSeparator] else []) ++ joinSep elems

/-- True when the path is rooted: it starts with a separator. -/
def isRooted : List Char → Bool
  | [] => false
  | c :: _ => IsPathSeparator c

/-- The state the destination root reads to. -/
def rootState (destDir : List Char) : Lexical :=
  Lexical.read (isRooted destDir) ⟨0, []⟩ destDir

/-- The state the entry name reads to, from that of the destination root. -/
def entryState (zipPath destDir : List Char) : Lexical :=
  Lexical.read (isRooted destDir) (rootState destDir) zipPath

/-- The named elements of a path: its elements other than the empty one
and `.`. -/
def pathElems (p : List Char) : List (List Char) :=
  (splitSep p).filter fun s => s != [] && s != ['.']

/-- The path `p` lies strictly below `root`: both are rooted or both are
relative, and the elements of `p` are those of `root` followed by at least
one more, none of them `..`. -/
def Descendant (root p : List Char) : Prop :=
  isRooted p = isRooted root ∧
  ∃ e, e ≠ [] ∧ ['.', '.'] ∉ e ∧ pathElems p = pathElems root ++ e

/-- The text `../` repeated `k` times. -/
def dotdots : Nat → List Char
  | 0 => []
  | k + 1 => '.' :: '.' :: PathSeparator :: dotdots k

/-! ## Archives that extract -/

/-- A safe relative entry name: it does not start with a separator, has at
least one named element, and none of its elements is `..`. -/
def SafeName (n : List Char) : Prop :=
  isRooted n = false ∧ pathElems n ≠ [] ∧ ['.', '.'] ∉ pathElems n

/-- The path `root/name` of an entry with a safe name under the
destination root. -/
def resolved (destDir : List Char) (f : ZipFile) : List Char :=
  Clean destDir ++ PathSeparator :: joinSep (pathElems f.Name)

/-- The node an entry leaves behind when it is extracted under `umask`. -/
def ZipFile.node (f : ZipFile) (umask : Nat) : Node :=
  if f.IsDir then .dir (applyUmask umask f.Mode)
  else .file (applyUmask umask f.Mode) (match f.Body with | .ok buf => buf | .error _ => [])

/-- The layout an archive needs to extract in the world `w`: every entry
has a safe name and a readable body, resolves to a path the system can take
and no earlier entry resolves to (`used`), and lies directly in a directory
in which the process may make entries (`dirs`): the root, or the directory of
an earlier directory entry whose permission bits, less those of the umask,
let the process write and search it. -/
def WellLaid (w : World) (destDir : List Char) :
    List (List Char) → List (List Char) → List ZipFile → Prop
  | _, _, [] => True
  | dirs, used, f :: rest =>
    SafeName f.Name ∧ nameError (resolved destDir f) = none ∧
    parentDir (resolved destDir f) ∈ dirs ∧ resolved destDir f ∉ used ∧
    (f.IsDir = false → ∃ buf, f.Body = .ok buf) ∧
    WellLaid w destDir
      (if f.IsDir && w.mayWrite (applyUmask w.umask f.Mode) then resolved destDir f :: dirs
       else dirs)
      (resolved destDir f :: used) rest

/-- The test for `Descendant`: the elements of `root` are a strict initial
part of those of `p`, and none of the further elements is `..`. -/
def isDescendant (root p : List Char) : Bool :=
  isRooted p == isRooted root &&
  (pathElems root).isPrefixOf (pathElems p) &&
  decide ((pathElems root).length < (pathElems p).length) &&
  !((pathElems p).drop (pathElems root).length).contains ['.', '.']

instance (n : List Char) : Decidable (SafeName n) := by
  unfold SafeName; infer_instance

/-! ## Concrete inputs -/

/-- A world with the directories `/`, `/out` and `.`, and umask 0. -/
def exWorld : World :=
  { fs := [("/".toList, .dir 0o755), ("/out".toList, .dir 0o750), (".".toList, .dir 0o755)],
    umask := 0, privileged := false, refused := [], calls := [], printed := [] }

/-- The directory entry `bin/`. -/
def exBin : ZipFile := ⟨"bin/".toList, true, 0o755, .ok []⟩

/-- The file entry `bin/tool`, mode 0755. -/
def exTool : ZipFile := ⟨"bin/tool".toList, false, 0o755, .ok [1, 2, 3]⟩

/-- The directory entry `lib/`. -/
def exLib : ZipFile := ⟨"lib/".toList, true, 0o755, .ok []⟩

/-- The file entry `lib/data.txt`, mode 0644. -/
def exData : ZipFile := ⟨"lib/data.txt".toList, false, 0o644, .ok [4, 5]⟩

/-- The directory entry `closed/`, mode 0. -/
def exClosed : ZipFile := ⟨"closed/".toList, true, 0, .ok []⟩

/-- The file entry `closed/inside`. -/
def exInside : ZipFile := ⟨"closed/inside".toList, false, 0o644, .ok [7]⟩

/-- A file entry whose name holds a NUL byte. -/
def exNul : ZipFile := ⟨['a', Char.ofNat 0, 'b'], false, 0o644, .ok [8]⟩

/-- The file entry `../evil`. -/
def exEvil : ZipFile := ⟨"../evil".toList, false, 0o644, .ok [6]⟩

/-- An environment of `run` whose archive cannot be read. -/
def exEnv : Env :=
  { Get := .ok (.ok [80, 75]), NewReader := fun _ _ => .error (.os "zip: not a valid zip file"),
    mainGo := [1], goMod := [2] }

/-- A build that exits with status 2 after a line on its standard error. -/
def exBuildFails : Outcome :=
  { startErr := none, output := [(.stderr, "./main.go:3:1: syntax error".toList)],
    waitErr := some "exit status 2".toList }

/-- A command that cannot be started. -/
def exNoStart : Outcome :=
  { startErr := some "executable file not found".toList, output := [], waitErr := none }

/-- A command that runs and exits with success. -/
def exSuccess : Outcome :=
  { startErr := none, output := [(.stdout, "Hello".toList)], waitErr := none }

/-- Two clicks: a build that succeeds and a format that cannot start. -/
def exCmds : List (List Char × List (List Char) × Outcome) :=
  [("go".toList, ["build".toList, "-v".toList, ".".toList], exSuccess),
   ("go".toList, ["fmt".toList, ".".toList], exNoStart)]

/-- The first call acquires the flag and starts its command, then the
second call tries its CAS. -/
def exSched : List Nat := [0, 0, 0, 0, 1]

/-- The system after `exSched`. -/
def exSys : Sys :=
  match (Sys.init exCmds).steps exSched with
  | some s => s
  | none => Sys.init exCmds

/-- A free page on which nothing has happened. -/
def exPage : Page := { showLoading := false, loading := false, trace := [] }

/-! # Theorems -/

set_option maxRecDepth 100000

/-! ## `filepath.Clean`, element by element -/

theorem isSep_iff (c : Char) : IsPathSeparator c = true ↔ c = PathSeparator := by
  simp [IsPathSeparator]

theorem isSep_false_iff (c : Char) : IsPathSeparator c = false ↔ c ≠ PathSeparator := by
  simp [IsPathSeparator]

theorem splitSep_ne_nil (p : List Char) : splitSep p ≠ [] := by
  cases p with
  | nil => simp [splitSep]
  | cons c cs =>
    simp only [splitSep]
    split
    · simp
    · split <;> simp

theorem splitSep_cons_sep (r : List Char) :
    splitSep (PathSeparator :: r) = [] :: splitSep r := by
  simp [splitSep, IsPathSeparator]

theorem splitSep_noSep (seg : List Char) (h : PathSeparator ∉ seg) : splitSep seg = [seg] := by
  induction seg with
  | nil => rfl
  | cons c cs ih =>
    have hc : IsPathSeparator c = false := by
      rw [isSep_false_iff]; intro hc; exact h (by simp [hc])
    have hcs : PathSeparator ∉ cs := fun hm => h (List.mem_cons_of_mem _ hm)
    simp [splitSep, hc, ih hcs]

theorem splitSep_append_sep (seg r : List Char) (h : PathSeparator ∉ seg) :
    splitSep (seg ++ PathSeparator :: r) = seg :: splitSep r := by
  induction seg with
  | nil => simp [splitSep_cons_sep]
  | cons c cs ih =>
    have hc : IsPathSeparator c = false := by
      rw [isSep_false_iff]; intro hc; exact h (by simp [hc])
    have hcs : PathSeparator ∉ cs := fun hm => h (List.mem_cons_of_mem _ hm)
    simp [splitSep, hc, ih hcs]

theorem splitSep_append (x y : List Char) :
    splitSep (x ++ PathSeparator :: y) = splitSep x ++ splitSep y := by
  induction x with
  | nil => rw [List.nil_append, splitSep_cons_sep]; rfl
  | cons c cs ih =>
    by_cases hc : IsPathSeparator c = true
    · simp [splitSep, hc, ih]
    · rw [List.cons_append, splitSep, splitSep, ih]
      simp only [hc]
      cases hs : splitSep cs with
      | nil => exact absurd hs (splitSep_ne_nil cs)
      | cons s ss => simp

theorem mem_splitSep_noSep (p s : List Char) (h : s ∈ splitSep p) : PathSeparator ∉ s := by
  induction p generalizing s with
  | nil => simp [splitSep] at h; subst h; simp
  | cons c cs ih =>
    by_cases hc : IsPathSeparator c = true
    · simp only [splitSep, hc, if_true, List.mem_cons] at h
      rcases h with rfl | h
      · simp
      · exact ih s h
    · simp only [splitSep, hc] at h
      cases hs : splitSep cs with
      | nil => exact absurd hs (splitSep_ne_nil cs)
      | cons t ts =>
        rw [hs] at h ih
        simp only [Bool.false_eq_true, if_false, List.mem_cons] at h
        rcases h with rfl | h
        · intro hm
          rcases List.mem_cons.mp hm with h1 | h1
          · exact hc ((isSep_iff c).mpr h1.symm)
          · exact ih t (by simp) h1
        · exact ih s (by simp [h])

theorem push_nil (rooted : Bool) (st : Lexical) : st.push rooted [] = st := by
  simp [Lexical.push]

theorem read_nil (rooted : Bool) (st : Lexical) : st.read rooted [] = st := by
  simp [Lexical.read, splitSep, push_nil]

theorem read_sep (rooted : Bool) (st : Lexical) (r : List Char) :
    st.read rooted (PathSeparator :: r) = st.read rooted r := by
  simp [Lexical.read, splitSep_cons_sep, push_nil]

theorem read_append (rooted : Bool) (st : Lexical) (x y : List Char) :
    st.read rooted (x ++ PathSeparator :: y) = (st.read rooted x).read rooted y := by
  simp [Lexical.read, splitSep_append]

theorem read_seg (rooted : Bool) (st : Lexical) (seg rest : List Char)
    (h : PathSeparator ∉ seg) (hr : atEndOrSep rest = true) :
    st.read rooted (seg ++ rest) = (st.push rooted seg).read rooted rest := by
  cases rest with
  | nil => simp [Lexical.read, splitSep_noSep seg h, splitSep, push_nil]
  | cons c r =>
    have hc : c = PathSeparator := by simpa [atEndOrSep, IsPathSeparator] using hr
    subst hc
    rw [read_sep]
    simp [Lexical.read, splitSep_append_sep seg r h]

theorem dotsRev_rooted (d : Nat) : dotsRev true d = [PathSeparator] := by
  cases d <;> simp [dotsRev]

theorem dotsRev_length_le (rooted : Bool) (d : Nat) (segs : List (List Char)) :
    (dotsRev rooted d).length ≤ (renderRev rooted d segs).length := by
  induction segs with
  | nil => simp [renderRev]
  | cons s rest ih =>
    simp only [renderRev, List.length_append, List.length_reverse, addSep]
    split
    · simp only [List.length_cons]; omega
    · omega

theorem backtrack_cons (dotdot : Nat) (c : Char) (out : List Char) :
    backtrack dotdot (c :: out)
      = if dotdot < out.length && !IsPathSeparator c then backtrack dotdot out else out := rfl

theorem backtrack_sep (dotdot : Nat) (sr base : List Char)
    (hs : ∀ c ∈ sr, IsPathSeparator c = false) (hb : dotdot ≤ base.length) :
    backtrack dotdot (sr ++ PathSeparator :: base) = base := by
  induction sr with
  | nil => simp [backtrack_cons, IsPathSeparator]
  | cons c rest ih =>
    have hc := hs c (by simp)
    have hlen : dotdot < (rest ++ PathSeparator :: base).length := by
      simp only [List.length_append, List.length_cons]; omega
    rw [List.cons_append, backtrack_cons]
    simp only [hc, hlen, decide_True, Bool.not_false, Bool.and_self, if_true]
    exact ih (fun c hcm => hs c (List.mem_cons_of_mem _ hcm))

theorem backtrack_base (dotdot : Nat) (sr base : List Char)
    (hs : ∀ c ∈ sr, IsPathSeparator c = false) (hne : sr ≠ [])
    (hb : base.length = dotdot) :
    backtrack dotdot (sr ++ base) = base := by
  induction sr with
  | nil => exact absurd rfl hne
  | cons c rest ih =>
    have hc := hs c (by simp)
    cases rest with
    | nil =>
      rw [List.cons_append, backtrack_cons]
      simp [hb]
    | cons c2 rest2 =>
      have hlen : dotdot < (c2 :: rest2 ++ base).length := by
        simp only [List.length_append, List.length_cons]; omega
      rw [List.cons_append, backtrack_cons]
      simp only [hc, hlen, decide_True, Bool.not_false, Bool.and_self, if_true]
      exact ih (fun c hcm => hs c (List.mem_cons_of_mem _ hcm)) (by simp)

theorem backtrack_render (rooted : Bool) (d : Nat) (s : List Char) (segs : List (List Char))
    (hs : s ≠ [] ∧ PathSeparator ∉ s) :
    backtrack (dotsRev rooted d).length (renderRev rooted d (s :: segs))
      = renderRev rooted d segs := by
  have hle := dotsRev_length_le rooted d segs
  have hsr : ∀ c ∈ s.reverse, IsPathSeparator c = false := by
    intro c hc
    rw [isSep_false_iff]
    rintro rfl
    exact hs.2 (List.mem_reverse.mp hc)
  simp only [renderRev, addSep]
  split
  · exact backtrack_sep _ _ _ hsr hle
  · rename_i hcond
    apply backtrack_base _ _ _ hsr (by simpa using hs.1)
    cases rooted with
    | true =>
      simp only [dotsRev_rooted, List.length_singleton] at hle ⊢
      simp at hcond
      exact hcond
    | false =>
      simp at hcond
      simp [hcond] at hle ⊢
      simp [hcond, hle]

theorem copyElem_eq (path out : List Char) :
    copyElem path out
      = (path.dropWhile (fun c => !IsPathSeparator c),
         (path.takeWhile (fun c => !IsPathSeparator c)).reverse ++ out) := by
  induction path generalizing out with
  | nil => simp [copyElem]
  | cons c rest ih =>
    by_cases hc : IsPathSeparator c = true
    · simp [copyElem, hc, List.dropWhile_cons, List.takeWhile_cons]
    · simp [copyElem, hc, List.dropWhile_cons, List.takeWhile_cons, ih]

theorem atEndOrSep_dropWhile (path : List Char) :
    atEndOrSep (path.dropWhile (fun c => !IsPathSeparator c)) = true := by
  induction path with
  | nil => rfl
  | cons c rest ih =>
    by_cases hc : IsPathSeparator c = true
    · simp [List.dropWhile_cons, hc, atEndOrSep]
    · simp [List.dropWhile_cons, hc, ih]

theorem takeWhile_noSep (path : List Char) :
    PathSeparator ∉ path.takeWhile (fun c => !IsPathSeparator c) := by
  intro h
  have := List.mem_takeWhile_imp h
  simp [IsPathSeparator] at this

theorem takeWhile_eq_nil_of_atEndOrSep (rest : List Char) :
    rest.takeWhile (fun c => !IsPathSeparator c) = [] ↔ atEndOrSep rest = true := by
  cases rest with
  | nil => simp [atEndOrSep]
  | cons c r =>
    by_cases hc : IsPathSeparator c = true
    · simp [List.takeWhile_cons, hc, atEndOrSep]
    · simp [List.takeWhile_cons, hc, atEndOrSep]

theorem push_valid (rooted : Bool) (st : Lexical) (s : List Char) (hv : st.Valid)
    (hs : PathSeparator ∉ s) : (st.push rooted s).Valid := by
  unfold Lexical.push
  split
  · exact hv
  · split
    · split
      · rename_i x rest hseg
        intro t ht
        exact hv t (by rw [hseg]; exact List.mem_cons_of_mem _ ht)
      · split
        · exact hv
        · exact hv
    · rename_i h1 h2
      intro t ht
      simp only [List.mem_cons] at ht
      rcases ht with rfl | ht
      · exact ⟨fun h => h1 (Or.inl h), hs⟩
      · exact hv t ht

theorem cleanLoop_succ (rooted : Bool) (fuel : Nat) (c : Char) (rest out : List Char)
    (dotdot : Nat) :
    cleanLoop rooted (fuel + 1) (c :: rest) out dotdot =
      if IsPathSeparator c then cleanLoop rooted fuel rest out dotdot
      else if c == '.' && atEndOrSep rest then cleanLoop rooted fuel rest out dotdot
      else if c == '.' && rest.head? == some '.' && atEndOrSep rest.tail then
        if dotdot < out.length then
          cleanLoop rooted fuel rest.tail (backtrack dotdot out) dotdot
        else if !rooted then
          cleanLoop rooted fuel rest.tail
            ('.' :: '.' :: (if 0 < out.length then PathSeparator :: out else out))
            ('.' :: '.' :: (if 0 < out.length then PathSeparator :: out else out)).length
        else
          cleanLoop rooted fuel rest.tail out dotdot
      else
        cleanLoop rooted fuel (copyElem (c :: rest) (addSep rooted out)).1
          (copyElem (c :: rest) (addSep rooted out)).2 dotdot := by
  rw [cleanLoop]
  rfl

/-- The main loop of `filepath.Clean` reads the path element by element. -/
theorem cleanLoop_read (rooted : Bool) : ∀ (fuel : Nat) (path : List Char) (st : Lexical),
    path.length < fuel → st.Valid →
    cleanLoop rooted fuel path (renderRev rooted st.dots st.segs) (dotsRev rooted st.dots).length
      = some (renderRev rooted (st.read rooted path).dots (st.read rooted path).segs) := by
  intro fuel
  induction fuel with
  | zero => intro path st h; omega
  | succ fuel ih =>
    intro path st hlen hv
    cases path with
    | nil => simp [cleanLoop, read_nil]
    | cons c rest =>
      simp only [List.length_cons] at hlen
      rw [cleanLoop_succ]
      by_cases hsep : IsPathSeparator c = true
      · have hc : c = PathSeparator := (isSep_iff c).mp hsep
        subst hc
        simp only [hsep, if_true, read_sep]
        exact ih rest st (by omega) hv
      · simp only [hsep, Bool.false_eq_true, if_false]
        by_cases hdot : (c == '.' && atEndOrSep rest) = true
        · simp only [hdot, if_true]
          simp only [Bool.and_eq_true, beq_iff_eq] at hdot
          obtain ⟨rfl, hr⟩ := hdot
          have := read_seg rooted st ['.'] rest (by simp [PathSeparator]) hr
          simp only [List.singleton_append] at this
          rw [this]
          have hp : st.push rooted ['.'] = st := by simp [Lexical.push]
          rw [hp]
          exact ih rest st (by omega) hv
        · simp only [hdot, Bool.false_eq_true, if_false]
          by_cases hdd : (c == '.' && rest.head? == some '.' && atEndOrSep rest.tail) = true
          · simp only [hdd, if_true]
            simp only [Bool.and_eq_true, beq_iff_eq] at hdd
            obtain ⟨⟨rfl, hh⟩, hr⟩ := hdd
            cases rest with
            | nil => simp at hh
            | cons c2 rest2 =>
              simp only [List.head?_cons, Option.some.injEq] at hh
              subst hh
              simp only [List.tail_cons] at hr ⊢
              simp only [List.length_cons] at hlen
              have hrd := read_seg rooted st ['.', '.'] rest2 (by simp [PathSeparator]) hr
              simp only [List.cons_append, List.nil_append] at hrd
              rw [hrd]
              have hv2 : (st.push rooted ['.', '.']).Valid :=
                push_valid rooted st _ hv (by simp [PathSeparator])
              have := ih rest2 (st.push rooted ['.', '.']) (by omega) hv2
              rw [← this]
              obtain ⟨d, segs⟩ := st
              cases segs with
              | cons s segs =>
                have hlt : (dotsRev rooted d).length < (renderRev rooted d (s :: segs)).length := by
                  have h1 := dotsRev_length_le rooted d segs
                  have h2 : 0 < s.length := List.length_pos.mpr (hv s (by simp)).1
                  simp only [renderRev, List.length_append, List.length_reverse, addSep]
                  split
                  · simp only [List.length_cons]; omega
                  · omega
                simp only [hlt, if_true]
                rw [backtrack_render rooted d s segs (hv s (by simp))]
                simp [Lexical.push]
              | nil =>
                simp only [renderRev, lt_self_iff_false, if_false]
                cases rooted with
                | true => simp [Lexical.push, renderRev]
                | false => simp [Lexical.push, renderRev, dotsRev]
          · simp only [hdd, Bool.false_eq_true, if_false]
            rw [copyElem_eq]
            simp only
            have hpath := (List.takeWhile_append_dropWhile
              (fun c => !IsPathSeparator c) (c :: rest)).symm
            have hno := takeWhile_noSep (c :: rest)
            have hend := atEndOrSep_dropWhile (c :: rest)
            have hdlen : ((c :: rest).dropWhile (fun c => !IsPathSeparator c)).length
                ≤ rest.length := by
              simp only [List.dropWhile_cons, hsep, Bool.not_false, if_true]
              exact (List.dropWhile_sublist _).length_le
            have hrd := read_seg rooted st _ _ hno hend
            rw [← hpath] at hrd
            rw [hrd]
            have htw : (c :: rest).takeWhile (fun c => !IsPathSeparator c)
                = c :: rest.takeWhile (fun c => !IsPathSeparator c) := by
              simp [List.takeWhile_cons, hsep]
            have hpush : st.push rooted ((c :: rest).takeWhile (fun c => !IsPathSeparator c))
                = { st with segs :=
                      (c :: rest).takeWhile (fun c => !IsPathSeparator c) :: st.segs } := by
              rw [htw]
              unfold Lexical.push
              have h1 : ¬ (c :: rest.takeWhile (fun c => !IsPathSeparator c) = [] ∨
                  c :: rest.takeWhile (fun c => !IsPathSeparator c) = ['.']) := by
                rintro (h | h)
                · simp at h
                · simp only [List.cons.injEq] at h
                  obtain ⟨rfl, h2⟩ := h
                  rw [takeWhile_eq_nil_of_atEndOrSep] at h2
                  simp [h2] at hdot
              have h2 : ¬ (c :: rest.takeWhile (fun c => !IsPathSeparator c) = ['.', '.']) := by
                intro h
                simp only [List.cons.injEq] at h
                obtain ⟨rfl, h3⟩ := h
                cases rest with
                | nil => simp at h3
                | cons c2 rest2 =>
                  by_cases hc2 : IsPathSeparator c2 = true
                  · simp [List.takeWhile_cons, hc2] at h3
                  · simp only [List.takeWhile_cons, hc2, Bool.not_false, if_true,
                      List.cons.injEq] at h3
                    obtain ⟨rfl, h4⟩ := h3
                    rw [takeWhile_eq_nil_of_atEndOrSep] at h4
                    simp [h4] at hdd
              rw [if_neg h1, if_neg h2]
            have hv2 := push_valid rooted st _ hv hno
            have := ih ((c :: rest).dropWhile (fun c => !IsPathSeparator c))
              (st.push rooted ((c :: rest).takeWhile (fun c => !IsPathSeparator c)))
              (by omega) hv2
            rw [← this, hpush]
            simp [renderRev]

theorem canon_valid {rooted : Bool} {st : Lexical} (h : st.Canon rooted) : st.Valid :=
  fun s hs => ⟨(h.2 s hs).1, (h.2 s hs).2.2.2⟩

theorem canon_init (rooted : Bool) : (Lexical.mk 0 []).Canon rooted :=
  ⟨fun _ => rfl, fun s hs => by simp at hs⟩

theorem push_canon (rooted : Bool) (st : Lexical) (s : List Char) (hv : st.Canon rooted)
    (hs : PathSeparator ∉ s) : (st.push rooted s).Canon rooted := by
  unfold Lexical.push
  split
  · exact hv
  · split
    · split
      · rename_i x rest hseg
        exact ⟨hv.1, fun t ht => hv.2 t (by rw [hseg]; exact List.mem_cons_of_mem _ ht)⟩
      · split
        · exact hv
        · rename_i hr
          exact ⟨fun h => absurd h hr, hv.2⟩
    · rename_i h1 h2
      refine ⟨hv.1, fun t ht => ?_⟩
      simp only [List.mem_cons] at ht
      rcases ht with rfl | ht
      · exact ⟨fun h => h1 (Or.inl h), fun h => h1 (Or.inr h), h2, hs⟩
      · exact hv.2 t ht

theorem foldl_push_canon (rooted : Bool) (l : List (List Char)) (st : Lexical)
    (hv : st.Canon rooted) (hl : ∀ s ∈ l, PathSeparator ∉ s) :
    (l.foldl (Lexical.push rooted) st).Canon rooted := by
  induction l generalizing st with
  | nil => exact hv
  | cons s rest ih =>
    simp only [List.foldl_cons]
    exact ih _ (push_canon rooted st s hv (hl s (by simp)))
      (fun t ht => hl t (List.mem_cons_of_mem _ ht))

theorem read_canon (rooted : Bool) (st : Lexical) (path : List Char) (hv : st.Canon rooted) :
    (st.read rooted path).Canon rooted :=
  foldl_push_canon rooted _ st hv (fun s hs => mem_splitSep_noSep path s hs)

/-- The loop of `filepath.Clean` never runs out of its fuel, and
`filepath.Clean` yields the cleaned path of the state its argument reads to. -/
theorem cleanFuel_eq (path : List Char) (fuel : Nat) (h : path.length < fuel) :
    cleanFuel fuel path
      = some ((Lexical.read (isRooted path) ⟨0, []⟩ path).path (isRooted path)) := by
  cases path with
  | nil => simp [cleanFuel, isRooted, read_nil, Lexical.path, renderRev, dotsRev]
  | cons c rest =>
    simp only [List.length_cons] at h
    by_cases hc : IsPathSeparator c = true
    · have hc2 := (isSep_iff c).mp hc
      subst hc2
      have hl := cleanLoop_read true fuel rest ⟨0, []⟩ (by omega)
        (canon_valid (canon_init true))
      simp only [renderRev, dotsRev, if_true, List.length_singleton] at hl
      simp only [cleanFuel, hc, if_true, hl, isRooted, read_sep, Option.map_some', Lexical.path]
    · have hl := cleanLoop_read false fuel (c :: rest) ⟨0, []⟩
        (by simp only [List.length_cons]; omega) (canon_valid (canon_init false))
      simp only [renderRev, dotsRev, Bool.false_eq_true, if_false, List.length_nil] at hl
      have hc3 : IsPathSeparator c = false := by simpa using hc
      simp only [cleanFuel, hc3, Bool.false_eq_true, if_false, hl, isRooted, Option.map_some',
        Lexical.path]

theorem cleanFuel_isSome (path : List Char) : (cleanFuel (path.length + 1) path).isSome := by
  rw [cleanFuel_eq path _ (by omega)]; rfl

theorem Clean_eq (path : List Char) :
    Clean path = (Lexical.read (isRooted path) ⟨0, []⟩ path).path (isRooted path) := by
  simp [Clean, cleanFuel_eq path _ (Nat.lt_succ_self _)]

/-! ## Paths and their elements -/

theorem joinSep_cons_cons (s t : List Char) (rest : List (List Char)) :
    joinSep (s :: t :: rest) = s ++ PathSeparator :: joinSep (t :: rest) := rfl

theorem joinSep_splitSep (p : List Char) : joinSep (splitSep p) = p := by
  induction p with
  | nil => rfl
  | cons c cs ih =>
    by_cases hc : IsPathSeparator c = true
    · have hc2 := (isSep_iff c).mp hc
      subst hc2
      rw [splitSep_cons_sep]
      cases hs : splitSep cs with
      | nil => exact absurd hs (splitSep_ne_nil cs)
      | cons s ss =>
        rw [hs] at ih
        rw [joinSep_cons_cons, ih]; rfl
    · rw [splitSep]
      simp only [hc, Bool.false_eq_true, if_false]
      cases hs : splitSep cs with
      | nil => exact absurd hs (splitSep_ne_nil cs)
      | cons s ss =>
        rw [hs] at ih
        cases ss with
        | nil => simp only [joinSep] at ih ⊢; rw [ih]
        | cons t ts =>
          rw [joinSep_cons_cons] at ih ⊢
          rw [List.cons_append, ih]

theorem joinSep_append (a e : List (List Char)) (ha : a ≠ []) (he : e ≠ []) :
    joinSep (a ++ e) = joinSep a ++ PathSeparator :: joinSep e := by
  induction a with
  | nil => exact absurd rfl ha
  | cons s rest ih =>
    cases rest with
    | nil =>
      cases e with
      | nil => exact absurd rfl he
      | cons t ts => rfl
    | cons t ts =>
      have := ih (by simp)
      simp only [List.cons_append] at this ⊢
      rw [joinSep_cons_cons, this, joinSep_cons_cons]
      simp

theorem splitSep_joinSep (l : List (List Char)) (hl : l ≠ [])
    (h : ∀ s ∈ l, PathSeparator ∉ s) : splitSep (joinSep l) = l := by
  induction l with
  | nil => exact absurd rfl hl
  | cons s rest ih =>
    cases rest with
    | nil => exact splitSep_noSep s (h s (by simp))
    | cons t ts =>
      rw [joinSep_cons_cons, splitSep_append_sep _ _ (h s (by simp)),
        ih (by simp) (fun u hu => h u (List.mem_cons_of_mem _ hu))]

/-- The prefix test of `validateZipPath`, read on elements: the path has the
prefix `root/` exactly when its elements are those of `root` followed by at
least one more. -/
theorem prefix_iff_elems (root p : List Char) :
    (root ++ [PathSeparator]) <+: p ↔ ∃ e, e ≠ [] ∧ splitSep p = splitSep root ++ e := by
  constructor
  · rintro ⟨z, hz⟩
    refine ⟨splitSep z, splitSep_ne_nil z, ?_⟩
    rw [← hz, List.append_assoc, List.singleton_append, splitSep_append]
  · rintro ⟨e, he, hp⟩
    refine ⟨joinSep e, ?_⟩
    have := joinSep_splitSep p
    rw [hp, joinSep_append _ _ (splitSep_ne_nil root) he, joinSep_splitSep] at this
    rw [← this]; simp

theorem joinSep_eq_nil (l : List (List Char)) (h : ∀ s ∈ l, s ≠ []) (hl : l ≠ []) :
    joinSep l ≠ [] := by
  cases l with
  | nil => exact absurd rfl hl
  | cons s rest =>
    cases rest with
    | nil => simpa [joinSep] using h s (by simp)
    | cons t ts => rw [joinSep_cons_cons]; simp

theorem dotsRev_reverse (d : Nat) :
    (dotsRev false d).reverse = joinSep (List.replicate d ['.', '.']) := by
  induction d with
  | zero => rfl
  | succ d ih =>
    simp only [dotsRev, Bool.false_eq_true, if_false]
    cases d with
    | zero => rfl
    | succ e =>
      have hne : 0 < (dotsRev false (e + 1)).length := by
        simp [dotsRev]
      simp only [hne, if_true, List.reverse_cons, ih]
      rw [List.replicate_succ' (e + 1), joinSep_append _ _ (by simp) (by simp)]
      simp [joinSep]

theorem renderRev_reverse (rooted : Bool) (st : Lexical) (h : st.Canon rooted) :
    (renderRev rooted st.dots st.segs).reverse = forward rooted st.elems := by
  obtain ⟨d, segs⟩ := st
  induction segs with
  | nil =>
    simp only [renderRev, Lexical.elems, List.reverse_nil, List.append_nil, forward]
    cases rooted with
    | true =>
      have hd : d = 0 := h.1 rfl
      subst hd
      rfl
    | false => simp [dotsRev_reverse]
  | cons s rest ih =>
    have hrest : (Lexical.mk d rest).Canon rooted :=
      ⟨h.1, fun t ht => h.2 t (List.mem_cons_of_mem _ ht)⟩
    have ih2 := ih hrest
    simp only [Lexical.elems] at ih2 ⊢
    have hs := h.2 s (by simp)
    simp only [renderRev, List.reverse_append, List.reverse_reverse, List.reverse_cons]
    have hlen : (renderRev rooted d rest).length
        = (forward rooted (List.replicate d ['.', '.'] ++ rest.reverse)).length := by
      rw [← ih2, List.length_reverse]
    by_cases he : List.replicate d ['.', '.'] ++ rest.reverse = []
    · rw [he] at ih2 hlen
      have hno : addSep rooted (renderRev rooted d rest) = renderRev rooted d rest := by
        cases rooted <;> simp [addSep, hlen, forward, joinSep]
      rw [hno, ih2, ← List.append_assoc, he]
      simp [forward, joinSep]
    · have hj : joinSep (List.replicate d ['.', '.'] ++ rest.reverse) ≠ [] := by
        apply joinSep_eq_nil _ _ he
        intro t ht
        rcases List.mem_append.mp ht with h1 | h1
        · rw [(List.mem_replicate.mp h1).2]; simp
        · exact (hrest.2 t (List.mem_reverse.mp h1)).1
      have hpos : 0 < (joinSep (List.replicate d ['.', '.'] ++ rest.reverse)).length :=
        List.length_pos.mpr hj
      have hyes : addSep rooted (renderRev rooted d rest)
          = PathSeparator :: renderRev rooted d rest := by
        cases rooted
        · have hl2 : (forward false (List.replicate d ['.', '.'] ++ rest.reverse)).length
              = (joinSep (List.replicate d ['.', '.'] ++ rest.reverse)).length := by
            simp [forward]
          rw [hl2] at hlen
          have hne : (renderRev false d rest).length ≠ 0 := by omega
          simp [addSep, hne]
        · have hl2 : (forward true (List.replicate d ['.', '.'] ++ rest.reverse)).length
              = (joinSep (List.replicate d ['.', '.'] ++ rest.reverse)).length + 1 := by
            simp only [forward, if_true, List.length_append, List.length_singleton]; omega
          rw [hl2] at hlen
          have hne : (renderRev true d rest).length ≠ 1 := by omega
          simp [addSep, hne]
      rw [hyes, List.reverse_cons, ih2]
      simp only [forward]
      rw [← List.append_assoc (List.replicate d ['.', '.']), joinSep_append _ [s] he (by simp)]
      simp [joinSep]

theorem elems_ne (rooted : Bool) (st : Lexical) (h : st.Canon rooted) :
    ∀ s ∈ st.elems, s ≠ [] ∧ PathSeparator ∉ s := by
  intro s hs
  rcases List.mem_append.mp hs with h1 | h1
  · rw [(List.mem_replicate.mp h1).2]; simp [PathSeparator]
  · have := h.2 s (List.mem_reverse.mp h1)
    exact ⟨this.1, this.2.2.2⟩

theorem elems_eq_nil (st : Lexical) : st.elems = [] ↔ st.dots = 0 ∧ st.segs = [] := by
  simp [Lexical.elems, List.replicate_eq_nil_iff]

/-- The cleaned path of a state, written forwards. -/
theorem path_eq (rooted : Bool) (st : Lexical) (h : st.Canon rooted) :
    st.path rooted
      = if rooted = false ∧ st.elems = [] then ['.'] else forward rooted st.elems := by
  simp only [Lexical.path]
  have hrev := renderRev_reverse rooted st h
  have hlen : (renderRev rooted st.dots st.segs).length = (forward rooted st.elems).length := by
    rw [← hrev, List.length_reverse]
  rw [hrev]
  by_cases he : st.elems = []
  · cases rooted
    · simp [he, forward, joinSep, hlen]
    · simp [he, forward, joinSep, hlen]
  · have hj := joinSep_eq_nil st.elems (fun s hs => (elems_ne rooted st h s hs).1) he
    have hpos : 0 < (joinSep st.elems).length := List.length_pos.mpr hj
    have : (renderRev rooted st.dots st.segs).length ≠ 0 := by
      rw [hlen]; simp only [forward, List.length_append]; omega
    simp [he, this]

/-- The elements of the cleaned path of a state. -/
theorem splitSep_path (rooted : Bool) (st : Lexical) (h : st.Canon rooted) :
    splitSep (st.path rooted)
      = if st.elems = [] then (if rooted then [[], []] else [['.']])
        else (if rooted then [] :: st.elems else st.elems) := by
  rw [path_eq rooted st h]
  by_cases he : st.elems = []
  · cases rooted <;> simp [he, forward, joinSep, splitSep, IsPathSeparator, PathSeparator]
  · have hs := splitSep_joinSep st.elems he (fun s hs => (elems_ne rooted st h s hs).2)
    cases rooted
    · simp [he, forward, hs]
    · simp only [he, forward, if_true, and_false, if_false, List.singleton_append,
        splitSep_cons_sep, hs]

theorem foldl_push_dots (st : Lexical) (d : Nat) (hs : st.segs = []) :
    (List.replicate d ['.', '.']).foldl (Lexical.push false) st
      = { st with dots := st.dots + d } := by
  induction d generalizing st with
  | zero => simp
  | succ d ih =>
    simp only [List.replicate_succ, List.foldl_cons]
    have hp : st.push false ['.', '.'] = { st with dots := st.dots + 1 } := by
      simp [Lexical.push, hs]
    rw [hp, ih { dots := st.dots + 1, segs := st.segs } hs]
    simp; omega

theorem foldl_push_names (rooted : Bool) (st : Lexical) (names : List (List Char))
    (h : ∀ s ∈ names, s ≠ [] ∧ s ≠ ['.'] ∧ s ≠ ['.', '.']) :
    names.foldl (Lexical.push rooted) st = { st with segs := names.reverse ++ st.segs } := by
  induction names generalizing st with
  | nil => simp
  | cons s rest ih =>
    have hs := h s (by simp)
    have hp : st.push rooted s = { st with segs := s :: st.segs } := by
      simp [Lexical.push, hs.1, hs.2.1, hs.2.2]
    simp only [List.foldl_cons, hp]
    rw [ih _ (fun t ht => h t (List.mem_cons_of_mem _ ht))]
    simp

theorem foldl_push_elems (rooted : Bool) (st : Lexical) (h : st.Canon rooted) :
    st.elems.foldl (Lexical.push rooted) ⟨0, []⟩ = st := by
  obtain ⟨d, segs⟩ := st
  simp only [Lexical.elems, List.foldl_append]
  have hd : (List.replicate d ['.', '.']).foldl (Lexical.push rooted) ⟨0, []⟩ = ⟨d, []⟩ := by
    cases rooted
    · rw [foldl_push_dots _ _ rfl]; simp
    · have : d = 0 := h.1 rfl
      subst this; rfl
  rw [hd, foldl_push_names]
  · simp
  · intro s hs
    have := h.2 s (List.mem_reverse.mp hs)
    exact ⟨this.1, this.2.1, this.2.2.1⟩

/-- Reading the cleaned path of a state gives the state back. -/
theorem read_path (rooted : Bool) (st : Lexical) (h : st.Canon rooted) :
    Lexical.read rooted ⟨0, []⟩ (st.path rooted) = st := by
  simp only [Lexical.read, splitSep_path rooted st h]
  by_cases he : st.elems = []
  · have := (elems_eq_nil st).mp he
    obtain ⟨d, segs⟩ := st
    simp only at this
    obtain ⟨rfl, rfl⟩ := this
    cases rooted <;> simp [he, Lexical.push]
  · have := foldl_push_elems rooted st h
    cases rooted
    · simpa [he] using this
    · simpa [he, push_nil] using this

theorem isRooted_path (rooted : Bool) (st : Lexical) (h : st.Canon rooted) :
    isRooted (st.path rooted) = rooted := by
  rw [path_eq rooted st h]
  cases rooted
  · by_cases he : st.elems = []
    · simp [he, isRooted, IsPathSeparator, PathSeparator]
    · simp only [he, and_false, if_false, forward, Bool.false_eq_true, List.nil_append]
      cases hel : st.elems with
      | nil => exact absurd hel he
      | cons s rest =>
        have hs := elems_ne false st h s (by rw [hel]; simp)
        cases s with
        | nil => exact absurd rfl hs.1
        | cons c cs =>
          have hc : IsPathSeparator c = false := by
            rw [isSep_false_iff]; rintro rfl; exact hs.2 (by simp)
          cases rest <;> simp [joinSep, isRooted, hc]
  · simp [forward, isRooted, IsPathSeparator]

theorem path_ne_nil (rooted : Bool) (st : Lexical) (h : st.Canon rooted) :
    st.path rooted ≠ [] := by
  intro hp
  have := splitSep_path rooted st h
  rw [hp] at this
  by_cases he : st.elems = []
  · cases rooted <;> simp [he, splitSep] at this
  · have hne := elems_ne rooted st h
    cases rooted
    · simp only [he, if_false, Bool.false_eq_true, splitSep] at this
      exact (hne [] (by rw [← this]; simp)).1 rfl
    · simp [he, splitSep] at this

theorem rootState_canon (destDir : List Char) : (rootState destDir).Canon (isRooted destDir) :=
  read_canon _ _ _ (canon_init _)

theorem entryState_canon (zipPath destDir : List Char) :
    (entryState zipPath destDir).Canon (isRooted destDir) :=
  read_canon _ _ _ (rootState_canon destDir)

theorem Clean_root (destDir : List Char) :
    Clean destDir = (rootState destDir).path (isRooted destDir) := Clean_eq destDir

theorem Join_eq (zipPath destDir : List Char) :
    Join (Clean destDir ++ [PathSeparator]) zipPath
      = (entryState zipPath destDir).path (isRooted destDir) := by
  have hne : Clean destDir ++ [PathSeparator] ≠ [] := by simp
  simp only [Join, hne, ne_eq, not_false_eq_true, if_true]
  rw [Clean_eq]
  have hc := rootState_canon destDir
  have hr : isRooted ((Clean destDir ++ [PathSeparator]) ++ PathSeparator :: zipPath)
      = isRooted destDir := by
    have h1 := isRooted_path _ _ hc
    rw [← Clean_root] at h1
    have h2 := path_ne_nil _ _ hc
    rw [← Clean_root] at h2
    cases hcd : Clean destDir with
    | nil => exact absurd hcd h2
    | cons c cs => rw [hcd] at h1; simpa [isRooted] using h1
  rw [hr, read_append]
  have h3 : Lexical.read (isRooted destDir) ⟨0, []⟩ (Clean destDir ++ [PathSeparator])
      = rootState destDir := by
    rw [read_append, read_nil, Clean_root, read_path _ _ hc]
  rw [h3]
  rfl

/-- The function `validateZipPath` in terms of the two states. -/
theorem validateZipPath_eq (zipPath destDir : List Char) :
    validateZipPath zipPath destDir
      = if ((rootState destDir).path (isRooted destDir) ++ [PathSeparator])
            <+: (entryState zipPath destDir).path (isRooted destDir)
        then .ok ((entryState zipPath destDir).path (isRooted destDir))
        else .error (.illegalPath ((entryState zipPath destDir).path (isRooted destDir))) := by
  simp only [validateZipPath, Join_eq, HasPrefix]
  rw [Clean_root]
  by_cases h : ((rootState destDir).path (isRooted destDir) ++ [PathSeparator])
            <+: (entryState zipPath destDir).path (isRooted destDir)
  · simp [h, List.isPrefixOf_iff_prefix]
  · have : ((rootState destDir).path (isRooted destDir) ++ [PathSeparator]).isPrefixOf
        ((entryState zipPath destDir).path (isRooted destDir)) = false := by
      rw [Bool.eq_false_iff]
      intro hp
      exact h (List.isPrefixOf_iff_prefix.mp hp)
    simp [h, this]

theorem dotdot_not_mem_segs (rooted : Bool) (st : Lexical) (h : st.Canon rooted) :
    ['.', '.'] ∉ st.segs.reverse := by
  intro hm
  exact (h.2 _ (List.mem_reverse.mp hm)).2.2.1 rfl

theorem dot_not_mem_elems (rooted : Bool) (st : Lexical) (h : st.Canon rooted) :
    ['.'] ∉ st.elems := by
  intro hm
  rcases List.mem_append.mp hm with h1 | h1
  · have := (List.mem_replicate.mp h1).2
    simp at this
  · exact (h.2 _ (List.mem_reverse.mp h1)).2.1 rfl

/-- Two lists that start with runs of `x` and go on without it: when they
are equal and the second goes on with something, the runs are equal. -/
theorem replicate_append_split (x : List Char) (d1 d2 : Nat) (a b e : List (List Char))
    (ha : x ∉ a) (hb : x ∉ b) (hbne : b ≠ [])
    (h : List.replicate d1 x ++ a = List.replicate d2 x ++ (b ++ e)) :
    d1 = d2 ∧ a = b ++ e := by
  induction d1 generalizing d2 with
  | zero =>
    cases d2 with
    | zero => simpa using h
    | succ k =>
      simp only [List.replicate_zero, List.nil_append, List.replicate_succ,
        List.cons_append] at h
      exact absurd (by rw [h]; simp) ha
  | succ j ih =>
    cases d2 with
    | zero =>
      cases b with
      | nil => exact absurd rfl hbne
      | cons b0 bs =>
        simp only [List.replicate_succ, List.cons_append, List.replicate_zero,
          List.nil_append, List.cons.injEq] at h
        exact absurd (by rw [← h.1]; simp) hb
    | succ k =>
      simp only [List.replicate_succ, List.cons_append, List.cons.injEq, true_and] at h
      obtain ⟨h1, h2⟩ := ih k h
      exact ⟨by omega, h2⟩

/-- The function `validateZipPath` accepts an entry exactly when the root
has a named first element or a `..` and the elements the entry resolves to
are those of the root followed by at least one more. -/
theorem validate_ok_iff (zipPath destDir : List Char) :
    (((rootState destDir).path (isRooted destDir) ++ [PathSeparator])
        <+: (entryState zipPath destDir).path (isRooted destDir)) ↔
      (rootState destDir).elems ≠ [] ∧
      ∃ e, e ≠ [] ∧ (entryState zipPath destDir).elems = (rootState destDir).elems ++ e := by
  have hc := rootState_canon destDir
  have hc2 := entryState_canon zipPath destDir
  rw [prefix_iff_elems, splitSep_path _ _ hc, splitSep_path _ _ hc2]
  have hn1 := elems_ne _ _ hc
  have hn2 := elems_ne _ _ hc2
  have hd2 := dot_not_mem_elems _ _ hc2
  generalize (rootState destDir).elems = a at *
  generalize (entryState zipPath destDir).elems = b at *
  constructor
  · rintro ⟨e, he, h⟩
    by_cases ha : a = []
    · exfalso
      subst ha
      by_cases hb : b = []
      · subst hb
        cases hr : isRooted destDir <;> simp [hr] at h <;> exact he h
      · cases hr : isRooted destDir
        · simp only [hr, hb, if_false, if_true, Bool.false_eq_true] at h
          exact hd2 (by rw [h]; simp)
        · simp only [hr, hb, if_false, if_true] at h
          simp only [List.cons_append, List.nil_append, List.cons.injEq, true_and] at h
          exact (hn2 [] (by rw [h]; simp)).1 rfl
    · refine ⟨ha, e, he, ?_⟩
      by_cases hb : b = []
      · exfalso
        subst hb
        have hlen := congrArg List.length h
        cases hr : isRooted destDir
        · simp only [hr, ha, if_false, if_true, Bool.false_eq_true, List.length_append,
            List.length_singleton] at hlen
          have := List.length_pos.mpr ha
          have := List.length_pos.mpr he
          omega
        · simp only [hr, ha, if_false, if_true, List.length_append, List.length_cons,
            List.length_nil] at hlen
          have := List.length_pos.mpr ha
          have := List.length_pos.mpr he
          omega
      · cases hr : isRooted destDir
        · simpa [hr, ha, hb] using h
        · simpa [hr, ha, hb] using h
  · rintro ⟨ha, e, he, h⟩
    refine ⟨e, he, ?_⟩
    have hb : b ≠ [] := by rw [h]; simp [ha]
    cases hr : isRooted destDir <;> simp [ha, hb, h]

theorem pathElems_path (rooted : Bool) (st : Lexical) (h : st.Canon rooted) :
    pathElems (st.path rooted) = st.elems := by
  simp only [pathElems, splitSep_path rooted st h]
  by_cases he : st.elems = []
  · cases rooted <;> simp [he]
  · have hall : st.elems.filter (fun s => s != [] && s != ['.']) = st.elems := by
      rw [List.filter_eq_self]
      intro s hs
      have h1 := (elems_ne rooted st h s hs).1
      have h2 : s ≠ ['.'] := fun hd => dot_not_mem_elems rooted st h (hd ▸ hs)
      simp [h1, h2]
    cases rooted
    · simp only [he, if_false, Bool.false_eq_true, hall]
    · simp only [he, if_false, if_true, List.filter_cons, hall]
      simp

theorem elems_ne_nil_of_clean (destDir : List Char) (h1 : Clean destDir ≠ [PathSeparator])
    (h2 : Clean destDir ≠ ['.']) : (rootState destDir).elems ≠ [] := by
  intro he
  have hp := path_eq _ _ (rootState_canon destDir)
  rw [← Clean_root] at hp
  cases hr : isRooted destDir
  · rw [hr] at hp
    simp [he] at hp
    exact h2 hp
  · rw [hr] at hp
    simp [he, forward, joinSep] at hp
    exact h1 hp

theorem elems_eq_nil_of_clean (destDir : List Char)
    (h : Clean destDir = [PathSeparator] ∨ Clean destDir = ['.']) :
    (rootState destDir).elems = [] := by
  by_contra he
  have hc := rootState_canon destDir
  have hs := splitSep_path _ _ hc
  rw [← Clean_root] at hs
  have hn := elems_ne _ _ hc
  have hd := dot_not_mem_elems _ _ hc
  rcases h with h | h
  · rw [h] at hs
    cases hr : isRooted destDir
    · simp only [hr, he, if_false, Bool.false_eq_true] at hs
      exact (hn [] (by rw [← hs]; simp [splitSep, IsPathSeparator])).1 rfl
    · simp only [hr, he, if_false, if_true, splitSep_cons_sep] at hs
      simp only [splitSep, List.cons.injEq, true_and] at hs
      exact (hn [] (by rw [← hs]; simp)).1 rfl
  · rw [h] at hs
    cases hr : isRooted destDir
    · simp only [hr, he, if_false, Bool.false_eq_true] at hs
      exact hd (by rw [← hs]; simp [splitSep, IsPathSeparator, PathSeparator])
    · simp only [hr, he, if_false, if_true] at hs
      simp [splitSep, IsPathSeparator, PathSeparator] at hs

/-- Claim C9, amended: for every destination root whose cleaned form is
neither `/` nor `.`, and every entry name whose joined, cleaned path is a
strict descendant of the cleaned root, `validateZipPath` succeeds and returns
the joined, cleaned path.  An entry name whose joined, cleaned path is the
cleaned root itself is rejected, and under a root whose cleaned form is `/`
or `.` every entry name is rejected. -/
theorem validateZipPath_descendant (zipPath destDir : List Char) :
    (Clean destDir ≠ [PathSeparator] → Clean destDir ≠ ['.'] →
      Descendant (Clean destDir) (Join (Clean destDir ++ [PathSeparator]) zipPath) →
      validateZipPath zipPath destDir
        = .ok (Join (Clean destDir ++ [PathSeparator]) zipPath)) ∧
    (Join (Clean destDir ++ [PathSeparator]) zipPath = Clean destDir →
      validateZipPath zipPath destDir
        = .error (.illegalPath (Join (Clean destDir ++ [PathSeparator]) zipPath))) ∧
    ((Clean destDir = [PathSeparator] ∨ Clean destDir = ['.']) →
      validateZipPath zipPath destDir
        = .error (.illegalPath (Join (Clean destDir ++ [PathSeparator]) zipPath))) := by
  have hc := rootState_canon destDir
  have hc2 := entryState_canon zipPath destDir
  have hv := validateZipPath_eq zipPath destDir
  have hiff := validate_ok_iff zipPath destDir
  refine ⟨?_, ?_, ?_⟩
  · intro h1 h2 hdesc
    obtain ⟨_, e, he, _, hel⟩ := hdesc
    rw [Join_eq, Clean_root, pathElems_path _ _ hc, pathElems_path _ _ hc2] at hel
    have hpre := hiff.mpr ⟨elems_ne_nil_of_clean destDir h1 h2, e, he, hel⟩
    rw [hv, if_pos hpre, Join_eq]
  · intro hj
    rw [Join_eq, Clean_root] at hj
    have hno : ¬ ((rootState destDir).path (isRooted destDir) ++ [PathSeparator])
        <+: (entryState zipPath destDir).path (isRooted destDir) := by
      rw [hj]
      intro hp
      have := hp.length_le
      simp at this
    rw [hv, if_neg hno, Join_eq]
  · intro h
    have he := elems_eq_nil_of_clean destDir h
    have hno : ¬ ((rootState destDir).path (isRooted destDir) ++ [PathSeparator])
        <+: (entryState zipPath destDir).path (isRooted destDir) := by
      rw [hiff]
      rintro ⟨hne, _⟩
      exact hne he
    rw [hv, if_neg hno, Join_eq]

/-- The function `validateZipPath` keeps what it accepts inside every root
whose cleaned form does not start with a `..` element. -/
theorem validateZipPath_inside (zipPath destDir p : List Char)
    (hroot : (splitSep (Clean destDir)).head? ≠ some ['.', '.'])
    (hok : validateZipPath zipPath destDir = .ok p) :
    ∃ z, p = Clean destDir ++ PathSeparator :: z ∧ ['.', '.'] ∉ splitSep z := by
  have hc := rootState_canon destDir
  have hc2 := entryState_canon zipPath destDir
  have hv := validateZipPath_eq zipPath destDir
  rw [hok] at hv
  by_cases hpre : ((rootState destDir).path (isRooted destDir) ++ [PathSeparator])
        <+: (entryState zipPath destDir).path (isRooted destDir)
  · rw [if_pos hpre] at hv
    simp only [Except.ok.injEq] at hv
    obtain ⟨hne, e, he, hel⟩ := (validate_ok_iff zipPath destDir).mp hpre
    obtain ⟨z, hz⟩ := hpre
    refine ⟨z, ?_, ?_⟩
    · rw [hv, Clean_root, ← hz]; simp
    · -- the elements of `z` are the elements added to those of the root
      have hsp : splitSep ((entryState zipPath destDir).path (isRooted destDir))
          = splitSep ((rootState destDir).path (isRooted destDir)) ++ splitSep z := by
        rw [← hz, List.append_assoc, List.singleton_append, splitSep_append]
      have hne2 : (entryState zipPath destDir).elems ≠ [] := by rw [hel]; simp [hne]
      rw [splitSep_path _ _ hc, splitSep_path _ _ hc2] at hsp
      have hze : (entryState zipPath destDir).elems
          = (rootState destDir).elems ++ splitSep z := by
        cases hr : isRooted destDir
        · simpa [hr, hne, hne2] using hsp
        · simpa [hr, hne, hne2] using hsp
      -- the root has no `..` element
      have hd0 : (rootState destDir).dots = 0 := by
        by_contra hd
        have hs := splitSep_path _ _ hc
        rw [← Clean_root] at hs
        cases hr : isRooted destDir
        · rw [hr] at hs
          simp only [hne, if_false, Bool.false_eq_true] at hs
          rw [hs] at hroot
          obtain ⟨k, hk⟩ := Nat.exists_eq_succ_of_ne_zero hd
          simp [Lexical.elems, hk, List.replicate_succ] at hroot
        · exact hd (hc.1 hr)
      have hsegs : (rootState destDir).segs.reverse ≠ [] := by
        intro hs
        apply hne
        simp [Lexical.elems, hd0, hs]
      have hsplit := replicate_append_split ['.', '.'] (entryState zipPath destDir).dots 0
        (entryState zipPath destDir).segs.reverse (rootState destDir).segs.reverse (splitSep z)
        (dotdot_not_mem_segs _ _ hc2) (dotdot_not_mem_segs _ _ hc) hsegs
        (by simpa [Lexical.elems, hd0] using hze)
      intro hm
      apply dotdot_not_mem_segs _ _ hc2
      rw [hsplit.2]
      exact List.mem_append_right _ hm
  · rw [if_neg hpre] at hv
    cases hv

theorem splitSep_dotdots (k : Nat) (x : List Char) (hx : PathSeparator ∉ x) :
    splitSep (dotdots k ++ x) = List.replicate k ['.', '.'] ++ [x] := by
  induction k with
  | zero => simpa [dotdots] using splitSep_noSep x hx
  | succ k ih =>
    have := splitSep_append_sep ['.', '.'] (dotdots k ++ x) (by simp [PathSeparator])
    simp only [List.cons_append, List.nil_append] at this
    simp only [dotdots, List.cons_append, this, ih, List.replicate_succ]

/-- After `k` elements `..`, either as many named elements are gone, or
none is left and no `..` was lost. -/
theorem foldl_push_dotdot (rooted : Bool) (k : Nat) (st : Lexical) :
    (((List.replicate k ['.', '.']).foldl (Lexical.push rooted) st).dots = st.dots ∧
      ((List.replicate k ['.', '.']).foldl (Lexical.push rooted) st).segs.length + k
        = st.segs.length) ∨
    (((List.replicate k ['.', '.']).foldl (Lexical.push rooted) st).segs = [] ∧
      st.dots ≤ ((List.replicate k ['.', '.']).foldl (Lexical.push rooted) st).dots) := by
  induction k generalizing st with
  | zero => left; simp
  | succ k ih =>
    simp only [List.replicate_succ, List.foldl_cons]
    obtain ⟨d, segs⟩ := st
    cases segs with
    | cons s rest =>
      have hp : Lexical.push rooted ⟨d, s :: rest⟩ ['.', '.'] = ⟨d, rest⟩ := by
        simp [Lexical.push]
      rw [hp]
      rcases ih ⟨d, rest⟩ with ⟨h1, h2⟩ | ⟨h1, h2⟩
      · left; simp only [List.length_cons] at h2 ⊢; exact ⟨h1, by omega⟩
      · right; exact ⟨h1, h2⟩
    | nil =>
      have hp : (Lexical.push rooted ⟨d, []⟩ ['.', '.']).segs = [] ∧
          d ≤ (Lexical.push rooted ⟨d, []⟩ ['.', '.']).dots := by
        cases rooted <;> simp [Lexical.push]
      rcases ih (Lexical.push rooted ⟨d, []⟩ ['.', '.']) with ⟨h1, h2⟩ | ⟨h1, h2⟩
      · right
        rw [hp.1] at h2
        simp only [List.length_nil] at h2
        refine ⟨List.length_eq_zero.mp (by omega), ?_⟩
        rw [h1]; exact hp.2
      · right
        exact ⟨h1, le_trans hp.2 h2⟩

/-- One element read adds at most one named element, and loses no `..`. -/
theorem push_bounds (rooted : Bool) (st : Lexical) (x : List Char) :
    st.dots ≤ (st.push rooted x).dots ∧
    (st.push rooted x).segs.length ≤ st.segs.length + 1 := by
  unfold Lexical.push
  split
  · simp
  · split
    · split
      · rename_i h; simp [h]; omega
      · split <;> simp
    · simp

/-- An entry name made of one or more `../` followed by a last element
without separator is rejected under every destination root whose cleaned form
is not made of `..` elements only. -/
theorem validateZipPath_rejects_climb (destDir x : List Char) (k : Nat)
    (hk : 0 < k) (hx : PathSeparator ∉ x)
    (hroot : ¬ ∀ s ∈ splitSep (Clean destDir), s = ['.', '.']) :
    validateZipPath (dotdots k ++ x) destDir
      = .error (.illegalPath (Join (Clean destDir ++ [PathSeparator]) (dotdots k ++ x))) := by
  have hc := rootState_canon destDir
  have hc2 := entryState_canon (dotdots k ++ x) destDir
  have hno : ¬ ((rootState destDir).path (isRooted destDir) ++ [PathSeparator])
      <+: (entryState (dotdots k ++ x) destDir).path (isRooted destDir) := by
    rw [validate_ok_iff]
    rintro ⟨hne, e, he, hel⟩
    -- the state of the entry: `k` times `..`, then `x`
    have hst : entryState (dotdots k ++ x) destDir
        = ((List.replicate k ['.', '.']).foldl (Lexical.push (isRooted destDir))
            (rootState destDir)).push (isRooted destDir) x := by
      simp [entryState, Lexical.read, splitSep_dotdots k x hx, List.foldl_append]
    have hb := push_bounds (isRooted destDir)
      ((List.replicate k ['.', '.']).foldl (Lexical.push (isRooted destDir))
        (rootState destDir)) x
    rw [← hst] at hb
    have hpop := foldl_push_dotdot (isRooted destDir) k (rootState destDir)
    by_cases hsegs : (rootState destDir).segs = []
    · -- the root has no named element: it is made of `..` only
      apply hroot
      have hs := splitSep_path _ _ hc
      rw [← Clean_root] at hs
      have hd : isRooted destDir = false := by
        by_contra hr
        have hr1 : isRooted destDir = true := by simpa using hr
        apply hne
        simp [Lexical.elems, hc.1 hr1, hsegs]
      rw [hd] at hs
      simp only [hne, if_false, Bool.false_eq_true] at hs
      intro s hsm
      rw [hs] at hsm
      simp only [Lexical.elems, hsegs, List.reverse_nil, List.append_nil] at hsm
      exact (List.mem_replicate.mp hsm).2
    · have hrev : (rootState destDir).segs.reverse ≠ [] := by simpa using hsegs
      have hsplit := replicate_append_split ['.', '.'] (entryState (dotdots k ++ x) destDir).dots
        (rootState destDir).dots (entryState (dotdots k ++ x) destDir).segs.reverse
        (rootState destDir).segs.reverse e
        (dotdot_not_mem_segs _ _ hc2) (dotdot_not_mem_segs _ _ hc) hrev
        (by simpa [Lexical.elems, List.append_assoc] using hel)
      have hlen := congrArg List.length hsplit.2
      simp only [List.length_append, List.length_reverse] at hlen
      have hepos := List.length_pos.mpr he
      have hspos : 0 < (rootState destDir).segs.length :=
        List.length_pos.mpr hsegs
      rcases hpop with ⟨h1, h2⟩ | ⟨h1, h2⟩
      · omega
      · rw [h1] at hb
        simp only [List.length_nil] at hb
        omega
  rw [validateZipPath_eq, if_neg hno, Join_eq]

/-- Cleaning a cleaned path changes nothing. -/
theorem Clean_path (rooted : Bool) (st : Lexical) (h : st.Canon rooted) :
    Clean (st.path rooted) = st.path rooted := by
  rw [Clean_eq, isRooted_path rooted st h, read_path rooted st h]

theorem Clean_Clean (p : List Char) : Clean (Clean p) = Clean p := by
  have h := Clean_path _ _ (rootState_canon p)
  rw [← Clean_root] at h
  exact h

theorem foldl_push_filter (rooted : Bool) (l : List (List Char)) (st : Lexical) :
    l.foldl (Lexical.push rooted) st
      = (l.filter fun s => s != [] && s != ['.']).foldl (Lexical.push rooted) st := by
  induction l generalizing st with
  | nil => rfl
  | cons s rest ih =>
    by_cases hs : s = [] ∨ s = ['.']
    · have hp : st.push rooted s = st := by simp [Lexical.push, hs]
      have hf : (s != [] && s != ['.']) = false := by
        rcases hs with rfl | rfl <;> simp
      simp only [List.foldl_cons, hp, List.filter_cons, hf, Bool.false_eq_true, if_false]
      exact ih st
    · have hf : (s != [] && s != ['.']) = true := by
        simp only [not_or] at hs
        simp [hs.1, hs.2]
      simp only [List.foldl_cons, List.filter_cons, hf, if_true]
      exact ih _

theorem mem_pathElems (n s : List Char) (h : s ∈ pathElems n) : s ≠ [] ∧ s ≠ ['.'] := by
  simp only [pathElems, List.mem_filter, Bool.and_eq_true, bne_iff_ne, ne_eq] at h
  exact h.2

/-- The function `validateZipPath` accepts a safe relative name under every
root whose cleaned form is neither `/` nor `.`, and resolves it to
`root/name`. -/
theorem validateZipPath_safe (n destDir : List Char) (hn : SafeName n)
    (h1 : Clean destDir ≠ [PathSeparator]) (h2 : Clean destDir ≠ ['.']) :
    validateZipPath n destDir
      = .ok (Clean destDir ++ PathSeparator :: joinSep (pathElems n)) ∧
    Clean (Clean destDir ++ PathSeparator :: joinSep (pathElems n))
      = Clean destDir ++ PathSeparator :: joinSep (pathElems n) := by
  have hc := rootState_canon destDir
  have hc2 := entryState_canon n destDir
  have hne := elems_ne_nil_of_clean destDir h1 h2
  have hst : entryState n destDir
      = { rootState destDir with segs := (pathElems n).reverse ++ (rootState destDir).segs } := by
    simp only [entryState, Lexical.read]
    rw [foldl_push_filter]
    exact foldl_push_names _ _ _ (fun s hs =>
      ⟨(mem_pathElems n s hs).1, (mem_pathElems n s hs).2, fun h => hn.2.2 (h ▸ hs)⟩)
  have hel : (entryState n destDir).elems = (rootState destDir).elems ++ pathElems n := by
    rw [hst]; simp [Lexical.elems]
  have hpre := (validate_ok_iff n destDir).mpr ⟨hne, pathElems n, hn.2.1, hel⟩
  have hpath : (entryState n destDir).path (isRooted destDir)
      = Clean destDir ++ PathSeparator :: joinSep (pathElems n) := by
    rw [Clean_root, path_eq _ _ hc, path_eq _ _ hc2, hel]
    have hne2 : (rootState destDir).elems ++ pathElems n ≠ [] := by simp [hne]
    simp only [hne, hne2, and_false, if_false, forward]
    rw [joinSep_append _ _ hne hn.2.1]
    simp
  constructor
  · rw [validateZipPath_eq, if_pos hpre, hpath]
  · rw [← hpath, Clean_path _ _ hc2]

theorem isDescendant_of_descendant (root p : List Char) (h : Descendant root p) :
    isDescendant root p = true := by
  obtain ⟨hr, e, he, hd, hel⟩ := h
  have hlen : (pathElems root).length < (pathElems p).length := by
    rw [hel, List.length_append]
    have := List.length_pos.mpr he
    omega
  have hpre : (pathElems root).isPrefixOf (pathElems p) = true := by
    rw [List.isPrefixOf_iff_prefix, hel]
    exact List.prefix_append _ _
  have hdrop : (pathElems p).drop (pathElems root).length = e := by
    rw [hel, List.drop_left]
  simp only [isDescendant, hr, beq_self_eq_true, hpre, hlen, decide_True, hdrop, Bool.true_and,
    Bool.not_eq_true']
  simpa using hd

theorem not_descendant (root p : List Char) (h : isDescendant root p = false) :
    ¬ Descendant root p := by
  intro hd
  rw [isDescendant_of_descendant root p hd] at h
  cases h

/-- Claim C2, amended: for every destination root whose cleaned form is not
made of `..` elements only, and every entry name (with or without a `..`
element or a leading separator), `validateZipPath` returns the path-traversal
error and no resolved path whenever the joined, cleaned path is not a strict
descendant of the cleaned root: every name that leads out of the root or to
the root itself is rejected.  When the joined, cleaned path is a strict
descendant of the cleaned root and the cleaned root is neither `/` nor `.`,
the name is accepted and resolved to that path, although it may contain a
`..` element or begin with the separator. -/
theorem validateZipPath_rejects_escape (zipPath destDir : List Char) :
    ((¬ ∀ s ∈ splitSep (Clean destDir), s = ['.', '.']) →
      ¬ Descendant (Clean destDir) (Join (Clean destDir ++ [PathSeparator]) zipPath) →
      validateZipPath zipPath destDir
        = .error (.illegalPath (Join (Clean destDir ++ [PathSeparator]) zipPath))) ∧
    (Clean destDir ≠ [PathSeparator] → Clean destDir ≠ ['.'] →
      Descendant (Clean destDir) (Join (Clean destDir ++ [PathSeparator]) zipPath) →
      validateZipPath zipPath destDir
        = .ok (Join (Clean destDir ++ [PathSeparator]) zipPath)) := by
  have hc := rootState_canon destDir
  have hc2 := entryState_canon zipPath destDir
  have hv := validateZipPath_eq zipPath destDir
  have hiff := validate_ok_iff zipPath destDir
  constructor
  · intro hroot hesc
    have hno : ¬ ((rootState destDir).path (isRooted destDir) ++ [PathSeparator])
        <+: (entryState zipPath destDir).path (isRooted destDir) := by
      intro hpre
      obtain ⟨hne, e, he, hel⟩ := hiff.mp hpre
      apply hesc
      rw [Join_eq, Clean_root]
      refine ⟨by rw [isRooted_path _ _ hc, isRooted_path _ _ hc2], e, he, ?_, ?_⟩
      · -- no further element is `..`
        by_cases hsegs : (rootState destDir).segs = []
        · exfalso
          apply hroot
          have hs := splitSep_path _ _ hc
          rw [← Clean_root] at hs
          have hd : isRooted destDir = false := by
            by_contra hr
            have hr1 : isRooted destDir = true := by simpa using hr
            apply hne
            simp [Lexical.elems, hc.1 hr1, hsegs]
          rw [hd] at hs
          simp only [hne, if_false, Bool.false_eq_true] at hs
          intro s hsm
          rw [hs] at hsm
          simp only [Lexical.elems, hsegs, List.reverse_nil, List.append_nil] at hsm
          exact (List.mem_replicate.mp hsm).2
        · have hrev : (rootState destDir).segs.reverse ≠ [] := by simpa using hsegs
          have hsplit := replicate_append_split ['.', '.'] (entryState zipPath destDir).dots
            (rootState destDir).dots (entryState zipPath destDir).segs.reverse
            (rootState destDir).segs.reverse e
            (dotdot_not_mem_segs _ _ hc2) (dotdot_not_mem_segs _ _ hc) hrev
            (by simpa [Lexical.elems, List.append_assoc] using hel)
          intro hm
          apply dotdot_not_mem_segs _ _ hc2
          rw [hsplit.2]
          exact List.mem_append_right _ hm
      · rw [pathElems_path _ _ hc, pathElems_path _ _ hc2, hel]
    rw [hv, if_neg hno, Join_eq]
  · intro h1 h2 hdesc
    obtain ⟨_, e, he, _, hel⟩ := hdesc
    rw [Join_eq, Clean_root, pathElems_path _ _ hc, pathElems_path _ _ hc2] at hel
    have hpre := hiff.mpr ⟨elems_ne_nil_of_clean destDir h1 h2, e, he, hel⟩
    rw [hv, if_pos hpre, Join_eq]

/-! ## Fail-fast extraction -/

/-- The making of a node leaves the world as it is or puts the node. -/
theorem create_world (w : World) (c : OsCall) (name key : List Char) (n : Node) :
    (w.create c name key n).2 = w ∨
    ((w.create c name key n).1 = none ∧ (w.create c name key n).2 = w.put key n) := by
  unfold World.create
  split
  · left; rfl
  · split
    · left; rfl
    · left; rfl
    · split
      · left; rfl
      · split
        · left; rfl
        · right; exact ⟨rfl, rfl⟩

theorem create_ok (w : World) (c : OsCall) (name key : List Char) (n : Node)
    (h : (w.create c name key n).1 = none) : (w.create c name key n).2 = w.put key n := by
  unfold World.create at h ⊢
  split
  · rename_i h1; simp [h1] at h
  · rename_i h1
    simp only [h1] at h
    split
    · rename_i h2; simp [h2] at h
    · rename_i h2; simp [h2] at h
    · rename_i h2
      simp only [h2] at h
      split
      · rename_i h3; simp [h3] at h
      · rename_i h3
        simp only [h3, if_false, Bool.false_eq_true] at h
        split
        · rename_i h4; simp [h4] at h
        · rfl

/-- The world after `os.Mkdir`: the call is recorded, and the directory is
put or nothing else is changed. -/
theorem osMkdir_world (name : List Char) (perm : Nat) (w : World) :
    (osMkdir name perm w).2 = w.log (.mkdir name perm) ∨
    ∃ n, (osMkdir name perm w).2 = (w.log (.mkdir name perm)).put (Clean name) n := by
  unfold osMkdir
  simp only
  split
  · left; rfl
  · rcases create_world (w.log (.mkdir name perm)) (.mkdir name perm) name (Clean name)
      (.dir (applyUmask (w.log (.mkdir name perm)).umask perm)) with h | h
    · left; exact h
    · right; exact ⟨_, h.2⟩

/-- The world after `ioutil.WriteFile`: the call is recorded, and the file
is put or nothing else is changed. -/
theorem WriteFile_world (name : List Char) (data : List Nat) (perm : Nat) (w : World) :
    (WriteFile name data perm w).2 = w.log (.writeFile name data perm) ∨
    ∃ n, (WriteFile name data perm w).2
      = (w.log (.writeFile name data perm)).put (Clean name) n := by
  unfold WriteFile
  simp only
  split
  · left; rfl
  · split
    · left; rfl
    · split
      · left; rfl
      · right; exact ⟨_, rfl⟩
  · rcases create_world (w.log (.writeFile name data perm)) (.writeFile name data perm) name
      (Clean name) (.file (applyUmask (w.log (.writeFile name data perm)).umask perm) data)
      with h | h
    · left; exact h
    · right; exact ⟨_, h.2⟩

theorem osMkdir_calls (name : List Char) (perm : Nat) (w : World) :
    (osMkdir name perm w).2.calls = w.calls ++ [.mkdir name perm] := by
  rcases osMkdir_world name perm w with h | ⟨n, h⟩ <;> rw [h] <;> rfl

theorem WriteFile_calls (name : List Char) (data : List Nat) (perm : Nat) (w : World) :
    (WriteFile name data perm w).2.calls = w.calls ++ [.writeFile name data perm] := by
  rcases WriteFile_world name data perm w with h | ⟨n, h⟩ <;> rw [h] <;> rfl

theorem unzipFiles_cons_ok (f : ZipFile) (rest : List ZipFile) (destDir dest : List Char)
    (w w1 : World) (hv : validateZipPath f.Name destDir = .ok dest)
    (hu : unzipFile f dest w = (none, w1)) :
    unzipFiles (f :: rest) destDir w = unzipFiles rest destDir w1 := by
  rw [unzipFiles]
  simp only [hv, hu]

theorem unzipFiles_cons_none (f : ZipFile) (rest : List ZipFile) (destDir : List Char)
    (w : World) (h : (unzipFiles (f :: rest) destDir w).1 = none) :
    ∃ dest w1, validateZipPath f.Name destDir = .ok dest ∧ unzipFile f dest w = (none, w1) := by
  rw [unzipFiles] at h
  cases hv : validateZipPath f.Name destDir with
  | error e => simp [hv] at h
  | ok dest =>
    simp only [hv] at h
    cases hu : unzipFile f dest w with
    | mk r w1 =>
      cases r with
      | some e => simp [hu] at h
      | none => exact ⟨dest, w1, rfl, hu⟩

theorem unzipFiles_calls (files : List ZipFile) (destDir : List Char) (w : World)
    (h : (unzipFiles files destDir w).1 = none) :
    (unzipFiles files destDir w).2.calls = w.calls ++ (files.map (entryCall destDir)).flatten := by
  induction files generalizing w with
  | nil => simp [unzipFiles]
  | cons f rest ih =>
    obtain ⟨dest, w1, hv, hu⟩ := unzipFiles_cons_none f rest destDir w h
    rw [unzipFiles_cons_ok f rest destDir dest w w1 hv hu] at h ⊢
    rw [ih w1 h]
    have hc : w1.calls = w.calls ++ entryCall destDir f := by
      have h2 : w1 = (unzipFile f dest w).2 := by rw [hu]
      have h1 : (unzipFile f dest w).1 = none := by rw [hu]
      unfold unzipFile at h2 h1
      unfold entryCall
      cases hd : f.IsDir with
      | true =>
        simp only [hd, if_true] at h2
        simp [hv, h2, osMkdir_calls]
      | false =>
        cases hb : f.Body with
        | error e => simp [hd, hb] at h1
        | ok buf =>
          simp only [hd, hb] at h2
          simp [hv, h2, WriteFile_calls]
    simp [hc, List.append_assoc]

theorem unzipFiles_append (pre post : List ZipFile) (destDir : List Char) (w : World)
    (h : (unzipFiles pre destDir w).1 = none) :
    unzipFiles (pre ++ post) destDir w = unzipFiles post destDir (unzipFiles pre destDir w).2 := by
  induction pre generalizing w with
  | nil => simp [unzipFiles]
  | cons f rest ih =>
    obtain ⟨dest, w1, hv, hu⟩ := unzipFiles_cons_none f rest destDir w h
    simp only [List.cons_append]
    rw [unzipFiles_cons_ok f rest destDir dest w w1 hv hu] at h ⊢
    rw [unzipFiles_cons_ok f (rest ++ post) destDir dest w w1 hv hu]
    exact ih w1 h

/-- Claim C3: `unzipFiles` is fail-fast in archive order.  When the entries
before `f` are extracted without error and the name of `f` fails
`validateZipPath` with `err`, `unzipFiles` returns `err`, the world is the one
left by the extraction of the earlier entries (their writes stay in place),
and the calls made to the operating system are exactly those of the earlier
entries, in order: none is made for `f` or for a later entry. -/
theorem unzipFiles_fail_fast (pre post : List ZipFile) (f : ZipFile) (destDir : List Char)
    (w : World) (err : Error)
    (hpre : (unzipFiles pre destDir w).1 = none)
    (hbad : validateZipPath f.Name destDir = .error err) :
    unzipFiles (pre ++ f :: post) destDir w = (some err, (unzipFiles pre destDir w).2) ∧
    (unzipFiles (pre ++ f :: post) destDir w).2.calls
      = w.calls ++ (pre.map (entryCall destDir)).flatten := by
  have h1 : unzipFiles (pre ++ f :: post) destDir w
      = (some err, (unzipFiles pre destDir w).2) := by
    rw [unzipFiles_append pre (f :: post) destDir w hpre]
    simp [unzipFiles, hbad]
  refine ⟨h1, ?_⟩
  rw [h1]
  exact unzipFiles_calls pre destDir w hpre

/-! ## The file system: lookups after an update -/

theorem lookup_filter_ne (fs : List (List Char × Node)) (k q : List Char) (h : q ≠ k) :
    (fs.filter fun e => e.1 != k).lookup q = fs.lookup q := by
  induction fs with
  | nil => rfl
  | cons e rest ih =>
    obtain ⟨a, n⟩ := e
    by_cases hak : a = k
    · subst hak
      have hqa : (q == a) = false := by simpa using h
      simp [List.filter_cons, List.lookup_cons, hqa, ih]
    · have hne : (a != k) = true := by simpa using hak
      simp only [List.filter_cons, hne, if_true, List.lookup_cons, ih]

theorem lookup_put_self (w : World) (k : List Char) (n : Node) :
    (w.put k n).fs.lookup k = some n := by
  simp [World.put, List.lookup_cons]

theorem lookup_put_ne (w : World) (k q : List Char) (n : Node) (h : q ≠ k) :
    (w.put k n).fs.lookup q = w.fs.lookup q := by
  have hqk : (q == k) = false := by simpa using h
  simp only [World.put, List.lookup_cons, hqk]
  exact lookup_filter_ne w.fs k q h

theorem lookup_put_isSome (w : World) (k q : List Char) (n : Node)
    (h : (w.fs.lookup q).isSome) : ((w.put k n).fs.lookup q).isSome := by
  by_cases hqk : q = k
  · subst hqk; simp [lookup_put_self]
  · rw [lookup_put_ne w k q n hqk]; exact h

theorem osMkdir_keeps (name : List Char) (perm : Nat) (w : World) (q : List Char)
    (h : (w.fs.lookup q).isSome) : ((osMkdir name perm w).2.fs.lookup q).isSome := by
  rcases osMkdir_world name perm w with h1 | ⟨n, h1⟩ <;> rw [h1]
  · exact h
  · exact lookup_put_isSome _ _ _ _ h

theorem WriteFile_keeps (name : List Char) (data : List Nat) (perm : Nat) (w : World)
    (q : List Char) (h : (w.fs.lookup q).isSome) :
    ((WriteFile name data perm w).2.fs.lookup q).isSome := by
  rcases WriteFile_world name data perm w with h1 | ⟨n, h1⟩ <;> rw [h1]
  · exact h
  · exact lookup_put_isSome _ _ _ _ h

theorem unzipFile_keeps (f : ZipFile) (dest : List Char) (w : World) (q : List Char)
    (h : (w.fs.lookup q).isSome) : ((unzipFile f dest w).2.fs.lookup q).isSome := by
  unfold unzipFile
  split
  · exact osMkdir_keeps _ _ _ _ h
  · split
    · exact h
    · exact WriteFile_keeps _ _ _ _ _ h

theorem unzipFiles_keeps (files : List ZipFile) (destDir : List Char) (w : World)
    (q : List Char) (h : (w.fs.lookup q).isSome) :
    ((unzipFiles files destDir w).2.fs.lookup q).isSome := by
  induction files generalizing w with
  | nil => rw [unzipFiles]; exact h
  | cons f rest ih =>
    rw [unzipFiles]
    split
    · exact h
    · rename_i dest hv
      have h1 := unzipFile_keeps f dest w q h
      split
      · rename_i e w1 hu
        rw [hu] at h1; exact h1
      · rename_i w1 hu
        rw [hu] at h1; exact ih w1 h1

/-! ## Directory entries -/

theorem osMkdir_exists (name : List Char) (perm : Nat) (w : World)
    (h : (w.node name).isSome) :
    osMkdir name perm w = (some (.os "EEXIST"), w.log (.mkdir name perm)) := by
  unfold osMkdir
  have h1 : ((w.log (.mkdir name perm)).fs.lookup (Clean name)).isSome := h
  cases hl : (w.log (.mkdir name perm)).fs.lookup (Clean name) with
  | none => simp [hl] at h1
  | some n => simp [hl]

theorem osMkdir_ok_node (name : List Char) (perm : Nat) (w : World)
    (h : (osMkdir name perm w).1 = none) : ((osMkdir name perm w).2.node name).isSome := by
  unfold osMkdir at h ⊢
  simp only at h ⊢
  cases h1 : (w.log (.mkdir name perm)).fs.lookup (Clean name) with
  | some n => simp [h1] at h
  | none =>
    simp only [h1] at h ⊢
    rw [create_ok _ _ _ _ _ h]
    simp only [World.node]
    rw [lookup_put_self]
    rfl

/-- After an extraction that returned no error, the resolved path of every
directory entry of the archive names a node. -/
theorem unzipFiles_dir_node (files : List ZipFile) (destDir : List Char) (w : World)
    (h : (unzipFiles files destDir w).1 = none) (f : ZipFile) (hf : f ∈ files)
    (hd : f.IsDir = true) :
    ∃ dest, validateZipPath f.Name destDir = .ok dest ∧
      ((unzipFiles files destDir w).2.node dest).isSome := by
  induction files generalizing w with
  | nil => simp at hf
  | cons g rest ih =>
    obtain ⟨dest, w1, hv, hu⟩ := unzipFiles_cons_none g rest destDir w h
    rw [unzipFiles_cons_ok g rest destDir dest w w1 hv hu] at h ⊢
    rcases List.mem_cons.mp hf with rfl | hmem
    · refine ⟨dest, hv, ?_⟩
      apply unzipFiles_keeps
      have h1 : (unzipFile f dest w).1 = none := by rw [hu]
      have h2 : w1 = (unzipFile f dest w).2 := by rw [hu]
      unfold unzipFile at h1 h2
      simp only [hd, if_true] at h1 h2
      rw [h2]
      exact osMkdir_ok_node dest f.Mode w h1
    · exact ih w1 h hmem

/-- Extraction stops with an error at a directory entry whose resolved path
names a node already, or before it. -/
theorem unzipFiles_dir_exists (files : List ZipFile) (destDir : List Char) (w : World)
    (f : ZipFile) (hf : f ∈ files) (hd : f.IsDir = true) (dest : List Char)
    (hv : validateZipPath f.Name destDir = .ok dest) (hn : (w.node dest).isSome) :
    (unzipFiles files destDir w).1 ≠ none := by
  induction files generalizing w with
  | nil => simp at hf
  | cons g rest ih =>
    intro h
    obtain ⟨dest1, w1, hv1, hu⟩ := unzipFiles_cons_none g rest destDir w h
    rw [unzipFiles_cons_ok g rest destDir dest1 w w1 hv1 hu] at h
    rcases List.mem_cons.mp hf with rfl | hmem
    · rw [hv] at hv1
      cases hv1
      unfold unzipFile at hu
      simp only [hd, if_true] at hu
      rw [osMkdir_exists dest f.Mode w hn] at hu
      simp at hu
    · have h1 : (w1.node dest).isSome := by
        have := unzipFile_keeps g dest1 w (Clean dest) hn
        rw [hu] at this; exact this
      exact ih w1 hmem h1 h

/-- Claim C5, amended: directory creation during extraction is not
idempotent.  For a directory entry `f` of the archive, `unzipFile` on a
resolved path that names a node already returns the error of `os.Mkdir`
(`EEXIST`) and changes nothing but the record of the call; hence, when a first
extraction of the archive returned no error, a second extraction of the same
archive into the same destination returns an error. -/
theorem unzipFile_dir_not_idempotent (files : List ZipFile) (destDir : List Char) (w : World)
    (f : ZipFile) (hf : f ∈ files) (hd : f.IsDir = true) :
    (∀ (dest : List Char) (v : World), (v.node dest).isSome →
      unzipFile f dest v = (some (.os "EEXIST"), v.log (.mkdir dest f.Mode))) ∧
    ((unzipFiles files destDir w).1 = none →
      (unzipFiles files destDir (unzipFiles files destDir w).2).1 ≠ none) := by
  constructor
  · intro dest v hn
    unfold unzipFile
    simp only [hd, if_true]
    exact osMkdir_exists dest f.Mode v hn
  · intro h
    obtain ⟨dest, hv, hn⟩ := unzipFiles_dir_node files destDir w h f hf hd
    exact unzipFiles_dir_exists files destDir _ f hf hd dest hv hn

/-! ## Extraction of a well laid out archive -/

theorem unzipFile_fresh (f : ZipFile) (p : List Char) (w : World) (hclean : Clean p = p)
    (hnone : w.fs.lookup p = none) (hname : nameError p = none)
    (hpar : ∃ m, w.fs.lookup (parentDir p) = some (.dir m) ∧ w.mayWrite m = true)
    (href : w.refused = [])
    (hbody : f.IsDir = false → ∃ buf, f.Body = .ok buf) :
    ∃ c, unzipFile f p w = (none, (w.log c).put p (f.node w.umask)) := by
  obtain ⟨m, hm, hw⟩ := hpar
  have hw2 : ∀ c, (w.log c).mayWrite m = true := fun c => hw
  have hr2 : ∀ c d, (w.log c).refusal d = none := by
    intro c d
    simp [World.refusal, World.log, href]
  unfold unzipFile
  cases hd : f.IsDir with
  | true =>
    refine ⟨.mkdir p f.Mode, ?_⟩
    have hm2 : (w.log (.mkdir p f.Mode)).fs.lookup (parentDir p) = some (.dir m) := hm
    have hn2 : (w.log (.mkdir p f.Mode)).fs.lookup p = none := hnone
    simp only [if_true, osMkdir, hclean, hn2, World.create, hname, hm2, hw2, hr2,
      Bool.not_true, Bool.false_eq_true, if_false, ZipFile.node, hd]
    rfl
  | false =>
    obtain ⟨buf, hb⟩ := hbody hd
    refine ⟨.writeFile p buf f.Mode, ?_⟩
    have hm2 : (w.log (.writeFile p buf f.Mode)).fs.lookup (parentDir p) = some (.dir m) := hm
    have hn2 : (w.log (.writeFile p buf f.Mode)).fs.lookup p = none := hnone
    simp only [Bool.false_eq_true, if_false, hb, WriteFile, hclean, hn2, World.create, hname,
      hm2, hw2, hr2, Bool.not_true, ZipFile.node, hd]
    rfl

theorem unzipFiles_wellLaid (w0 : World) (destDir : List Char)
    (h1 : Clean destDir ≠ [PathSeparator])
    (h2 : Clean destDir ≠ ['.']) (files : List ZipFile) :
    ∀ (dirs used : List (List Char)) (w : World), WellLaid w0 destDir dirs used files →
      w.umask = w0.umask → w.privileged = w0.privileged → w.refused = [] →
      (∀ q ∈ dirs, ∃ m, w.fs.lookup q = some (.dir m) ∧ w.mayWrite m = true) →
      (∀ q, (Clean destDir ++ [PathSeparator]) <+: q → (w.fs.lookup q).isSome → q ∈ used) →
      (unzipFiles files destDir w).1 = none ∧
      (∀ q ∈ used, (unzipFiles files destDir w).2.fs.lookup q = w.fs.lookup q) ∧
      (∀ f ∈ files,
        (unzipFiles files destDir w).2.fs.lookup (resolved destDir f)
          = some (f.node w0.umask)) := by
  induction files with
  | nil =>
    intro dirs used w _ _ _ _ _ _
    simp [unzipFiles]
  | cons f rest ih =>
    intro dirs used w hl hum hpriv href hdirs hused
    obtain ⟨hsafe, hname, hpar, hnew, hbody, hrest⟩ := hl
    obtain ⟨hv, hclean⟩ := validateZipPath_safe f.Name destDir hsafe h1 h2
    have hunder : (Clean destDir ++ [PathSeparator]) <+: resolved destDir f :=
      ⟨joinSep (pathElems f.Name), by simp [resolved]⟩
    have hnone : w.fs.lookup (resolved destDir f) = none := by
      cases hlk : w.fs.lookup (resolved destDir f) with
      | none => rfl
      | some n => exact absurd (hused _ hunder (by simp [hlk])) hnew
    obtain ⟨c, hu⟩ := unzipFile_fresh f (resolved destDir f) w hclean hnone hname
      (hdirs _ hpar) href hbody
    rw [unzipFiles_cons_ok f rest destDir _ w _ hv hu]
    have hself : ((w.log c).put (resolved destDir f) (f.node w.umask)).fs.lookup
        (resolved destDir f) = some (f.node w.umask) := lookup_put_self _ _ _
    have hother : ∀ q, q ≠ resolved destDir f →
        ((w.log c).put (resolved destDir f) (f.node w.umask)).fs.lookup q = w.fs.lookup q :=
      fun q hq => lookup_put_ne (w.log c) _ q _ hq
    have hmay : ∀ m, ((w.log c).put (resolved destDir f) (f.node w.umask)).mayWrite m
        = w0.mayWrite m := by
      intro m
      simp only [World.mayWrite, World.put, World.log, hpriv]
    have hmayw : ∀ m, w.mayWrite m = w0.mayWrite m := by
      intro m
      simp only [World.mayWrite, hpriv]
    have hdirs2 : ∀ q ∈ (if f.IsDir && w0.mayWrite (applyUmask w0.umask f.Mode)
          then resolved destDir f :: dirs else dirs),
        ∃ m, ((w.log c).put (resolved destDir f) (f.node w.umask)).fs.lookup q
          = some (.dir m) ∧
          ((w.log c).put (resolved destDir f) (f.node w.umask)).mayWrite m = true := by
      intro q hq
      by_cases hqp : q = resolved destDir f
      · subst hqp
        by_cases hd : (f.IsDir && w0.mayWrite (applyUmask w0.umask f.Mode)) = true
        · simp only [Bool.and_eq_true] at hd
          refine ⟨applyUmask w0.umask f.Mode, ?_, ?_⟩
          · rw [hself]; simp [ZipFile.node, hd.1, hum]
          · rw [hmay]; exact hd.2
        · rw [if_neg hd] at hq
          obtain ⟨m, hm, _⟩ := hdirs _ hq
          rw [hnone] at hm
          cases hm
      · have hq2 : q ∈ dirs := by
          by_cases hd : (f.IsDir && w0.mayWrite (applyUmask w0.umask f.Mode)) = true
          · rw [if_pos hd] at hq
            rcases List.mem_cons.mp hq with h | h
            · exact absurd h hqp
            · exact h
          · rw [if_neg hd] at hq
            exact hq
        obtain ⟨m, hm, hw⟩ := hdirs q hq2
        refine ⟨m, ?_, ?_⟩
        · rw [hother q hqp]; exact hm
        · rw [hmay, ← hmayw]; exact hw
    have hused2 : ∀ q, (Clean destDir ++ [PathSeparator]) <+: q →
        (((w.log c).put (resolved destDir f) (f.node w.umask)).fs.lookup q).isSome →
        q ∈ resolved destDir f :: used := by
      intro q hq hs
      by_cases hqp : q = resolved destDir f
      · simp [hqp]
      · rw [hother q hqp] at hs
        exact List.mem_cons_of_mem _ (hused q hq hs)
    obtain ⟨r1, r3, r4⟩ := ih _ _ ((w.log c).put (resolved destDir f) (f.node w.umask))
      hrest hum hpriv href hdirs2 hused2
    refine ⟨r1, ?_, ?_⟩
    · intro q hq
      rw [r3 q (List.mem_cons_of_mem _ hq)]
      exact hother q (fun h => hnew (h ▸ hq))
    · intro g hg
      rcases List.mem_cons.mp hg with rfl | hg
      · rw [r3 _ (by simp), hself, hum]
      · exact r4 g hg

theorem MkdirAll_exists (name : List Char) (perm : Nat) (w : World) (m : Nat)
    (h : w.node name = some (.dir m)) (href : w.refused = []) :
    MkdirAll name perm w = (none, w.log (.stat name)) := by
  have hs : osStat name w = (.ok (.dir m), w.log (.stat name)) := by
    have h' : (w.log (.stat name)).node name = some (.dir m) := h
    have hr : (w.log (.stat name)).refusal (.stat name) = none := by
      simp [World.refusal, World.log, href]
    simp only [osStat, h', hr]
  simp only [MkdirAll, mkdirAllFuel, hs]

/-- Claim C4, amended: let the cleaned destination root be neither `/` nor
`.`, exist as a directory in which the process may make entries, and have
nothing beneath it; let the environment refuse no call; and let the archive be
well laid out for this world: every entry has a safe relative name and a
readable body, resolves to a path the system can take (no NUL byte, no
over-long element or path) and no earlier entry resolves to, and lies
directly in the root or in the directory of an earlier directory entry whose
permission bits, less those of the umask, let the process write and search
it.  Then `unzip` returns no error, and afterwards every entry `f` is found
at `root/f.Name`, the path `validateZipPath` resolves it to: a file entry as
a file with the content of `f` and the permission bits of `f` less those of
the umask, a directory entry as a directory with those permission bits. -/
theorem unzip_wellLaid (NewReader : List Nat → Nat → Except Error (List ZipFile))
    (r : List Nat) (size : Nat) (outPath : List Char) (files : List ZipFile) (w : World)
    (m : Nat)
    (hr1 : Clean outPath ≠ [PathSeparator]) (hr2 : Clean outPath ≠ ['.'])
    (hroot : w.node outPath = some (.dir m)) (hmay : w.mayWrite m = true)
    (hempty : ∀ q, (Clean outPath ++ [PathSeparator]) <+: q → w.fs.lookup q = none)
    (hrefused : w.refused = [])
    (hread : NewReader r size = .ok files)
    (hlaid : WellLaid w outPath [Clean outPath] [] files) :
    (unzip NewReader r size outPath w).1 = none ∧
    ∀ f ∈ files, validateZipPath f.Name outPath = .ok (resolved outPath f) ∧
      (unzip NewReader r size outPath w).2.node (resolved outPath f)
        = some (f.node w.umask) := by
  have hu : unzip NewReader r size outPath w
      = unzipFiles files outPath (w.log (.stat outPath)) := by
    simp only [unzip, MkdirAll_exists outPath 0o750 w m hroot hrefused, hread]
  rw [hu]
  obtain ⟨r1, _, r4⟩ := unzipFiles_wellLaid w outPath hr1 hr2 files [Clean outPath] []
    (w.log (.stat outPath)) hlaid rfl rfl hrefused
    (by
      intro q hq
      simp only [List.mem_singleton] at hq
      subst hq
      exact ⟨m, hroot, hmay⟩)
    (by
      intro q hq hs
      have := hempty q hq
      have hs' : (w.fs.lookup q).isSome := hs
      rw [this] at hs'
      cases hs')
  refine ⟨r1, fun f hf => ?_⟩
  -- the entry is safe, by the layout
  have hsafe : ∀ (fs : List ZipFile) (dirs used : List (List Char)),
      WellLaid w outPath dirs used fs → f ∈ fs → SafeName f.Name := by
    intro fs
    induction fs with
    | nil => intro _ _ _ h; simp at h
    | cons g rest ih =>
      intro dirs used hl hmem
      rcases List.mem_cons.mp hmem with rfl | hmem
      · exact hl.1
      · exact ih _ _ hl.2.2.2.2.2 hmem
  obtain ⟨hv, hclean⟩ := validateZipPath_safe f.Name outPath (hsafe files _ _ hlaid hf) hr1 hr2
  refine ⟨hv, ?_⟩
  have := r4 f hf
  simp only [World.node]
  rw [show Clean (resolved outPath f) = resolved outPath f from hclean]
  exact this

theorem osStat_printed (name : List Char) (w : World) :
    (osStat name w).2.printed = w.printed := by
  unfold osStat
  simp only [World.log]
  split
  · split <;> rfl
  · split <;> rfl

theorem ReadDir_printed (name : List Char) (w : World) :
    (ReadDir name w).2.printed = w.printed := by
  unfold ReadDir
  simp only [World.log]
  split
  · split
    · rfl
    · split <;> rfl
  · rfl
  · split <;> rfl

theorem WriteFile_printed (name : List Char) (data : List Nat) (perm : Nat) (w : World) :
    (WriteFile name data perm w).2.printed = w.printed := by
  rcases WriteFile_world name data perm w with h | ⟨n, h⟩ <;> rw [h] <;> rfl

theorem makeTestModule_printed (a b : List Nat) (w : World) :
    (makeTestModule a b w).2.printed = w.printed := by
  unfold makeTestModule
  split
  · rename_i e w1 h
    have := WriteFile_printed "main.go".toList a 0o600 w
    rw [h] at this; exact this
  · rename_i w1 h
    have := WriteFile_printed "main.go".toList a 0o600 w
    rw [h] at this
    rw [WriteFile_printed, this]

theorem foldl_print_printed (dir : List (List Char)) (w : World) :
    (dir.foldl (fun acc f => acc.print (.name f)) w).printed
      = w.printed ++ dir.map Printed.name := by
  induction dir generalizing w with
  | nil => simp
  | cons d rest ih =>
    simp only [List.foldl_cons, ih, List.map_cons]
    simp [World.print]

/-- Claim C10: `run` does not propagate an extraction failure.  When the
archive was fetched and read, `unzip` returns the error `e`, and the following
`ReadDir("/go")`, `Stat("/go")` and `makeTestModule` succeed, `run` returns
nil, having printed `e`. -/
theorem run_ignores_unzip_error (env : Env) (w : World) (buf : List Nat) (e : Error)
    (dir : List (List Char)) (info : Node)
    (hget : env.Get = .ok (.ok buf))
    (hunzip : (unzip env.NewReader buf buf.length "/go".toList w).1 = some e)
    (hreaddir : (ReadDir "/go".toList
      ((unzip env.NewReader buf buf.length "/go".toList w).2.print (.err (some e)))).1 = .ok dir)
    (hstat : (osStat "/go".toList (dir.foldl (fun acc f => acc.print (.name f))
      (ReadDir "/go".toList
        ((unzip env.NewReader buf buf.length "/go".toList w).2.print (.err (some e)))).2)).1
        = .ok info)
    (hmod : (makeTestModule env.mainGo env.goMod
      ((osStat "/go".toList (dir.foldl (fun acc f => acc.print (.name f))
        (ReadDir "/go".toList
          ((unzip env.NewReader buf buf.length "/go".toList w).2.print
            (.err (some e)))).2)).2.print (.dirPerm info.perm))).1 = none) :
    (run env w).1 = none ∧ Printed.err (some e) ∈ (run env w).2.printed := by
  unfold run
  simp only [hget]
  cases hu : unzip env.NewReader buf buf.length "/go".toList w with
  | mk r w1 =>
    rw [hu] at hunzip hreaddir hstat hmod
    simp only at hunzip hreaddir hstat hmod
    subst hunzip
    simp only
    cases hr : ReadDir "/go".toList (w1.print (.err (some e))) with
    | mk rd w3 =>
      rw [hr] at hreaddir hstat hmod
      simp only at hreaddir hstat hmod
      subst hreaddir
      simp only
      cases hs : osStat "/go".toList (dir.foldl (fun acc f => acc.print (.name f)) w3) with
      | mk st w5 =>
        rw [hs] at hstat hmod
        simp only at hstat hmod
        subst hstat
        simp only
        refine ⟨hmod, ?_⟩
        rw [makeTestModule_printed]
        have h5 : w5.printed = (dir.foldl (fun acc f => acc.print (.name f)) w3).printed := by
          have := osStat_printed "/go".toList (dir.foldl (fun acc f => acc.print (.name f)) w3)
          rw [hs] at this; exact this
        have h3 : w3.printed = (w1.print (.err (some e))).printed := by
          have := ReadDir_printed "/go".toList (w1.print (.err (some e)))
          rw [hr] at this; exact this
        rw [foldl_print_printed] at h5
        simp [World.print, h5, h3]

/-! ## `startProcess` -/

theorem writeAll_cons (p : Page) (me : Nat) (l : Sink × List Char)
    (rest : List (Sink × List Char)) :
    p.writeAll me (l :: rest) = (p.write me l.1 l.2).writeAll me rest := rfl

theorem writeAll_trace (p : Page) (me : Nat) (output : List (Sink × List Char)) :
    (p.writeAll me output).trace
      = p.trace ++ output.map (fun l => (some me, Event.write l.1 l.2)) ∧
    (p.writeAll me output).showLoading = p.showLoading ∧
    (p.writeAll me output).loading = p.loading := by
  induction output generalizing p with
  | nil => simp [Page.writeAll]
  | cons l rest ih =>
    rw [writeAll_cons]
    obtain ⟨h1, h2, h3⟩ := ih (p.write me l.1 l.2)
    rw [h1, h2, h3]
    simp [Page.write, Page.emit]

/-- Claim C7: a call of `startProcess` that acquires the flag returns true
exactly when `cmd.Start` and `cmd.Wait` both returned no error; when it
returns false it has written the diagnostic line of the outcome to the
stderr-tagged sink, and that write comes before the `showLoading.Store(false)`
of the call, which is followed only by the removal of the loading class; in
every case the flag is false when the call returns. -/
theorem startProcess_acquired (me : Nat) (o : Outcome) (name : List Char)
    (args : List (List Char)) (p : Page) (hfree : p.showLoading = false) :
    ((startProcess me o name args p).1 = true ↔ (o.startErr = none ∧ o.waitErr = none)) ∧
    ((startProcess me o name args p).1 = false →
      ∃ pre msg, diagnostic o = some msg ∧
        (startProcess me o name args p).2.trace
          = p.trace ++ pre ++ [(some me, .write .stderr msg), (some me, .store), (some me, .classRemove)] ∧
        (some me, Event.store) ∉ pre) ∧
    (startProcess me o name args p).2.showLoading = false := by
  obtain ⟨se, out, we⟩ := o
  unfold startProcess
  simp only [hfree, bne_self_eq_false, Bool.false_eq_true, if_false]
  cases se with
  | some err =>
    refine ⟨by simp, fun _ => ⟨[(some me, .cas true), (some me, .classAdd),
        (some me, .write .stdout (invocationLine name args))], _, rfl, ?_, ?_⟩, ?_⟩
    · simp [release, Page.write, Page.emit]
    · simp
    · simp [release, Page.write, Page.emit]
  | none =>
    cases we with
    | some err =>
      refine ⟨by simp, fun _ => ⟨[(some me, .cas true), (some me, .classAdd),
        (some me, .write .stdout (invocationLine name args)), (some me, .start name args)]
          ++ out.map (fun l => (some me, Event.write l.1 l.2)), _, rfl, ?_, ?_⟩, ?_⟩
      · simp [release, Page.write, Page.emit, (writeAll_trace _ me out).1]
      · simp
      · simp [release, Page.write, Page.emit]
    | none =>
      refine ⟨by simp, fun h => by simp at h, ?_⟩
      simp [release, Page.write, Page.emit]

/-- A call of `startProcess` stepped on its own from its entry reaches its
return in nine steps, with the result and the page of `startProcess`. -/
theorem runCall_eq_startProcess (me : Nat) (o : Outcome) (name : List Char)
    (args : List (List Char)) (p : Page) :
    runCall me 9 { name := name, args := args, outcome := o, pc := .entry } p
      = ({ name := name, args := args, outcome := o,
           pc := .returned (startProcess me o name args p).1 },
         (startProcess me o name args p).2) := by
  obtain ⟨se, out, we⟩ := o
  cases hb : p.showLoading <;> cases se <;> cases we <;>
    simp [runCall, stepCall, startProcess, hb, release, Page.write, Page.emit]

/-! ## Interleaved calls of `startProcess` -/

theorem reachable_of_steps (s0 s s1 : Sys) (sched : List Nat) (h0 : Reachable s0 s)
    (h : s.steps sched = some s1) : Reachable s0 s1 := by
  induction sched generalizing s with
  | nil =>
    simp only [Sys.steps, Option.some.injEq] at h
    subst h; exact h0
  | cons i rest ih =>
    simp only [Sys.steps] at h
    cases hs : s.step i with
    | none => simp [hs] at h
    | some s2 =>
      simp only [hs] at h
      exact ih s2 (Reachable.step s s2 i h0 hs) h

theorem init_inv (cmds : List (List Char × List (List Char) × Outcome)) :
    (Sys.init cmds).Inv := by
  simp only [Sys.Inv, Sys.holders, Sys.init]
  induction cmds with
  | nil => rfl
  | cons c rest ih => simp [List.countP_cons, PC.holding]

/-- What one step of a call does to the flag, read off its position before
and after. -/
theorem stepCall_flag (me : Nat) (c c1 : Call) (p p1 : Page)
    (h : stepCall me c p = some (c1, p1)) :
    (c.pc.holding = false ∧ c1.pc.holding = false ∧ p1.showLoading = p.showLoading) ∨
    (c.pc.holding = false ∧ c1.pc.holding = true ∧ p.showLoading = false ∧
      p1.showLoading = true) ∨
    (c.pc.holding = true ∧ c1.pc.holding = true ∧ p1.showLoading = p.showLoading) ∨
    (c.pc.holding = true ∧ c1.pc.holding = false ∧ p1.showLoading = false) := by
  obtain ⟨name, args, o, pc⟩ := c
  cases pc with
  | entry =>
    cases hb : p.showLoading <;>
      simp [stepCall, hb] at h <;> obtain ⟨rfl, rfl⟩ := h <;>
      simp [PC.holding, Page.emit, hb]
  | acquired =>
    simp [stepCall] at h; obtain ⟨rfl, rfl⟩ := h; simp [PC.holding, Page.emit]
  | added =>
    simp [stepCall] at h; obtain ⟨rfl, rfl⟩ := h; simp [PC.holding, Page.emit, Page.write]
  | announced =>
    cases hs : o.startErr <;>
      simp [stepCall, hs] at h <;> obtain ⟨rfl, rfl⟩ := h <;>
      simp [PC.holding, Page.emit]
  | startFailed err =>
    simp [stepCall] at h; obtain ⟨rfl, rfl⟩ := h; simp [PC.holding, Page.emit, Page.write]
  | running =>
    cases hs : o.waitErr <;>
      simp [stepCall, hs] at h <;> obtain ⟨rfl, rfl⟩ := h <;>
      simp [PC.holding, (writeAll_trace _ _ _).2.1]
  | waitFailed err =>
    simp [stepCall] at h; obtain ⟨rfl, rfl⟩ := h; simp [PC.holding, Page.emit, Page.write]
  | deferred ok =>
    simp [stepCall] at h; obtain ⟨rfl, rfl⟩ := h; simp [PC.holding, Page.emit]
  | stored ok =>
    simp [stepCall] at h; obtain ⟨rfl, rfl⟩ := h; simp [PC.holding, Page.emit]
  | returned ok => simp [stepCall] at h

theorem flag_count (cnt : Nat) (h0 h1 b0 b1 : Bool)
    (hinv : cnt = if b0 then 1 else 0) (hle : (if h0 then 1 else 0) ≤ cnt)
    (hf : (h0 = false ∧ h1 = false ∧ b1 = b0) ∨
      (h0 = false ∧ h1 = true ∧ b0 = false ∧ b1 = true) ∨
      (h0 = true ∧ h1 = true ∧ b1 = b0) ∨
      (h0 = true ∧ h1 = false ∧ b1 = false)) :
    cnt - (if h0 then 1 else 0) + (if h1 then 1 else 0) = if b1 then 1 else 0 := by
  cases h0 <;> cases h1 <;> cases b0 <;> cases b1 <;> simp_all

theorem step_inv (s s1 : Sys) (i : Nat) (hinv : s.Inv) (h : s.step i = some s1) : s1.Inv := by
  unfold Sys.step at h
  cases hc : s.calls[i]? with
  | none => simp [hc] at h
  | some c =>
    simp only [hc] at h
    cases hst : stepCall i c s.page with
    | none => simp [hst] at h
    | some r =>
      obtain ⟨c1, p1⟩ := r
      simp only [hst, Option.some.injEq] at h
      subst h
      obtain ⟨hi, hget⟩ := List.getElem?_eq_some_iff.mp hc
      have hcount := List.countP_set (fun c => c.pc.holding) s.calls i c1 hi
      have hle := List.boole_getElem_le_countP (fun c => c.pc.holding) s.calls i hi
      rw [hget] at hcount hle
      simp only [Sys.Inv, Sys.holders] at hinv ⊢
      rw [hcount]
      exact flag_count _ _ _ _ _ hinv hle (stepCall_flag i c c1 s.page p1 hst)

theorem reachable_inv (cmds : List (List Char × List (List Char) × Outcome)) (s : Sys)
    (h : Reachable (Sys.init cmds) s) : s.Inv := by
  induction h with
  | init => exact init_inv cmds
  | step s s1 i _ hs ih => exact step_inv s s1 i ih hs

theorem inFlight_le_holders (s : Sys) : s.inFlight ≤ s.holders := by
  unfold Sys.inFlight Sys.holders
  apply List.countP_mono_left
  intro c _ h
  cases hpc : c.pc <;> simp [PC.inFlight, PC.holding, hpc] at h ⊢

theorem set_of_getElem? (l : List Call) (i : Nat) (c : Call) (h : l[i]? = some c) :
    l.set i c = l := by
  induction l generalizing i with
  | nil => rfl
  | cons a rest ih =>
    cases i with
    | zero => simp at h; simp [h]
    | succ j => simp at h; simp [ih j h]

theorem steps_replicate (n i : Nat) (s : Sys) (c c1 : Call) (p1 : Page)
    (hc : s.calls[i]? = some c) (h : stepN i n c s.page = some (c1, p1)) :
    s.steps (List.replicate n i) = some { calls := s.calls.set i c1, page := p1 } := by
  induction n generalizing s c with
  | zero =>
    simp only [stepN, Option.some.injEq, Prod.mk.injEq] at h
    obtain ⟨rfl, rfl⟩ := h
    obtain ⟨hi, hget⟩ := List.getElem?_eq_some_iff.mp hc
    simp only [List.replicate, Sys.steps, Option.some.injEq]
    rw [set_of_getElem? s.calls i c hc]
  | succ n ih =>
    simp only [stepN] at h
    cases hst : stepCall i c s.page with
    | none => simp [hst] at h
    | some r =>
      obtain ⟨c2, p2⟩ := r
      simp only [hst] at h
      obtain ⟨hi, hget⟩ := List.getElem?_eq_some_iff.mp hc
      have hstep : s.step i = some { calls := s.calls.set i c2, page := p2 } := by
        simp [Sys.step, hc, hst]
      simp only [List.replicate, Sys.steps, hstep]
      have := ih { calls := s.calls.set i c2, page := p2 } c2
        (by simp [List.getElem?_set_self, hi]) h
      simpa [List.set_set] using this

/-- A call that holds the flag stores `false` into it within six steps of
its own, whatever the outcome of its command. -/
theorem holding_releases (i : Nat) (c : Call) (p : Page) (h : c.pc.holding = true) :
    ∃ n ≤ 6, ∃ ok p1, stepN i n c p = some ({ c with pc := .stored ok }, p1) ∧
      p1.showLoading = false := by
  obtain ⟨name, args, ⟨se, out, we⟩, pc⟩ := c
  cases pc with
  | entry => simp [PC.holding] at h
  | stored ok => simp [PC.holding] at h
  | returned ok => simp [PC.holding] at h
  | acquired =>
    cases se with
    | some e => exact ⟨5, by omega, false, _, rfl, rfl⟩
    | none =>
      cases we with
      | some e => exact ⟨6, by omega, false, _, rfl, rfl⟩
      | none => exact ⟨5, by omega, true, _, rfl, rfl⟩
  | added =>
    cases se with
    | some e => exact ⟨4, by omega, false, _, rfl, rfl⟩
    | none =>
      cases we with
      | some e => exact ⟨5, by omega, false, _, rfl, rfl⟩
      | none => exact ⟨4, by omega, true, _, rfl, rfl⟩
  | announced =>
    cases se with
    | some e => exact ⟨3, by omega, false, _, rfl, rfl⟩
    | none =>
      cases we with
      | some e => exact ⟨4, by omega, false, _, rfl, rfl⟩
      | none => exact ⟨3, by omega, true, _, rfl, rfl⟩
  | startFailed e => exact ⟨2, by omega, false, _, rfl, rfl⟩
  | running =>
    cases we with
    | some e => exact ⟨3, by omega, false, _, rfl, rfl⟩
    | none => exact ⟨2, by omega, true, _, rfl, rfl⟩
  | waitFailed e => exact ⟨2, by omega, false, _, rfl, rfl⟩
  | deferred ok => exact ⟨1, by omega, ok, _, rfl, rfl⟩

/-- Claim C6: the single-flight invariant of `startProcess`.  In every state
reached from the initial one (flag false, every call before its CAS) by
interleaving the steps of the calls in any order: at most one call is between
its successful CAS and its release, so at most one command is in flight;
`showLoading` is true exactly when some call is between its successful CAS
and its release; a call whose CAS finds the flag set returns false and adds
nothing to the page but the record of the failed CAS (no command started, no
sink written); a call that holds the flag stores false into it within six
steps of its own, whatever the outcome of its command; and when no call holds
the flag, the CAS of any call at its entry succeeds. -/
theorem single_flight (cmds : List (List Char × List (List Char) × Outcome)) (s : Sys)
    (h : Reachable (Sys.init cmds) s) :
    s.holders ≤ 1 ∧ s.inFlight ≤ 1 ∧
    (s.page.showLoading = true ↔ ∃ c ∈ s.calls, c.pc.holding = true) ∧
    (∀ i c, s.calls[i]? = some c → c.pc = .entry → s.page.showLoading = true →
      s.step i = some { calls := s.calls.set i { c with pc := .returned false },
                        page := s.page.emit i (.cas false) }) ∧
    (∀ i c, s.calls[i]? = some c → c.pc.holding = true →
      ∃ n ≤ 6, ∃ ok p1, s.steps (List.replicate n i)
          = some { calls := s.calls.set i { c with pc := .stored ok }, page := p1 } ∧
        p1.showLoading = false) ∧
    ((∀ c ∈ s.calls, c.pc.holding = false) → ∀ i c, s.calls[i]? = some c → c.pc = .entry →
      s.step i = some { calls := s.calls.set i { c with pc := .acquired },
                        page := { s.page with showLoading := true }.emit i (.cas true) }) := by
  have hinv := reachable_inv cmds s h
  simp only [Sys.Inv] at hinv
  have hflag : s.page.showLoading = true ↔ ∃ c ∈ s.calls, c.pc.holding = true := by
    have hpos := List.countP_pos_iff (p := fun c : Call => c.pc.holding) (l := s.calls)
    simp only [Sys.holders] at hinv
    rw [hinv] at hpos
    constructor
    · intro hb
      exact hpos.mp (by simp [hb])
    · intro hex
      have := hpos.mpr hex
      by_contra hb
      simp [hb] at this
  refine ⟨?_, ?_, hflag, ?_, ?_, ?_⟩
  · rw [hinv]; split <;> omega
  · have := inFlight_le_holders s
    rw [hinv] at this
    split at this <;> omega
  · intro i c hc hpc hb
    simp [Sys.step, hc, stepCall, hpc, hb]
  · intro i c hc hh
    obtain ⟨n, hn, ok, p1, hst, hp1⟩ := holding_releases i c s.page hh
    exact ⟨n, hn, ok, p1, steps_replicate n i s c _ p1 hc hst, hp1⟩
  · intro hnone i c hc hpc
    have hb : s.page.showLoading = false := by
      by_contra hb
      have hb1 : s.page.showLoading = true := by simpa using hb
      obtain ⟨d, hd, hdh⟩ := hflag.mp hb1
      rw [hnone d hd] at hdh
      exact absurd hdh (by decide)
    simp [Sys.step, hc, stepCall, hpc, hb]

/-! ## Build, then run -/

theorem getElem?_concat_self (l : List Future) (x : Future) :
    (l ++ [x])[l.length]? = some x := by
  simp

theorem set_concat_self (l : List Future) (x y : Future) :
    (l ++ [x]).set l.length y = l ++ [y] := by
  induction l with
  | nil => rfl
  | cons a rest ih => simp [ih]

theorem getElem?_concat_two (l : List Future) (x y : Future) :
    (l ++ [x, y])[l.length + 1]? = some y := by
  rw [List.getElem?_append_right (by omega)]; simp

theorem set_concat_two (l : List Future) (x y z : Future) :
    (l ++ [x, y]).set (l.length + 1) z = l ++ [x, z] := by
  simp [List.set_append]

theorem getElem?_concat_two_left (l : List Future) (x y : Future) :
    (l ++ [x, y])[l.length]? = some x := by
  rw [List.getElem?_append_right (by omega)]; simp

/-- The events of one call of `startProcess` all carry its number. -/
theorem startProcess_events (me : Nat) (o : Outcome) (name : List Char)
    (args : List (List Char)) (p : Page) :
    ∃ evs, (startProcess me o name args p).2.trace = p.trace ++ evs ∧
      ∀ e ∈ evs, e.1 = some me := by
  obtain ⟨se, out, we⟩ := o
  unfold startProcess
  cases hb : p.showLoading
  · simp only [bne_self_eq_false, Bool.false_eq_true, if_false]
    cases se with
    | some err =>
      refine ⟨[(some me, .cas true), (some me, .classAdd), (some me, .write .stdout (invocationLine name args)),
        (some me, .write .stderr ("Failed to start process: ".toList ++ err ++ "\n".toList)),
        (some me, .store), (some me, .classRemove)], ?_, ?_⟩
      · simp [release, Page.write, Page.emit]
      · simp
    | none =>
      cases we with
      | some err =>
        refine ⟨[(some me, .cas true), (some me, .classAdd),
          (some me, .write .stdout (invocationLine name args)), (some me, .start name args)]
            ++ out.map (fun l => (some me, Event.write l.1 l.2))
            ++ [(some me, .write .stderr (err ++ "\n".toList)), (some me, .store), (some me, .classRemove)],
          ?_, ?_⟩
        · simp [release, Page.write, Page.emit, (writeAll_trace _ me out).1]
        · simp only [List.mem_append, List.mem_map]
          rintro e ((h | ⟨l, _, rfl⟩) | h)
          · simp at h; rcases h with rfl | rfl | rfl | rfl <;> rfl
          · rfl
          · simp at h; rcases h with rfl | rfl | rfl <;> rfl
      | none =>
        refine ⟨[(some me, .cas true), (some me, .classAdd),
          (some me, .write .stdout (invocationLine name args)), (some me, .start name args)]
            ++ out.map (fun l => (some me, Event.write l.1 l.2))
            ++ [(some me, .store), (some me, .classRemove)], ?_, ?_⟩
        · simp [release, Page.write, Page.emit, (writeAll_trace _ me out).1]
        · simp only [List.mem_append, List.mem_map]
          rintro e ((h | ⟨l, _, rfl⟩) | h)
          · simp at h; rcases h with rfl | rfl | rfl | rfl <;> rfl
          · rfl
          · simp at h; rcases h with rfl | rfl <;> rfl
  · refine ⟨[(some me, .cas false)], ?_, ?_⟩
    · simp [Page.emit]
    · simp

theorem playground_page (early : Bool) (build exec : Outcome) (s : Pipe)
    (hready : s.ready = []) :
    (playground early build exec s).page = pageAfter build exec s ∧
    (playground early build exec s).ready = [] ∧
    (playground early build exec s).calls = s.calls +
      (if (startProcess s.calls build "go".toList
        ["build".toList, "-v".toList, ".".toList] s.page).1 then 2 else 1) ∧
    ((playground early build exec s).futures[s.futures.length]?).map (fun x => x.state)
      = some (if (startProcess s.calls build "go".toList
        ["build".toList, "-v".toList, ".".toList] s.page).1 then .resolved else .rejected) := by
  cases hb : (startProcess s.calls build "go".toList
        ["build".toList, "-v".toList, ".".toList] s.page) with
  | mk ok pg =>
    have hb2 := hb
    simp only [String.toList] at hb2
    cases early <;> cases ok <;>
      simp only [playground, runPlaygroundAt, runProcess, promiseNew, hready, schedule,
        runGoroutine, Then, resolve, reject, invoke, hb2, pageAfter, Page.settle, getElem?_concat_self,
        set_concat_self, getElem?_concat_two, set_concat_two, List.nil_append, String.toList,
        List.length_append, List.length_singleton, List.append_assoc, List.singleton_append,
        getElem?_concat_two_left, if_true, if_false, Bool.false_eq_true] <;>
      (try split) <;>
      simp only [getElem?_concat_two_left, getElem?_concat_self, Option.map_some', and_self,
        List.append_assoc, List.singleton_append, List.nil_append, if_true, if_false,
        Bool.false_eq_true, List.cons_append]

/-- Claim C8: build-then-run short-circuits on failure.  With no goroutine
waiting before the click, whether the build goroutine runs before or after
`Then` attaches the continuation: when the build's `startProcess` returns
false, the page after the click is the page after that call followed by the
one rejection of the build's future (so: every new event before the rejection
belongs to the build's call, the continuation is not invoked, no second
`startProcess` call is made, no goroutine is left waiting, and the future is
rejected); when it returns true, every event of the run's `startProcess` call
comes after the resolution of the build's future and the invocation of the
continuation. -/
theorem build_failure_short_circuits (early : Bool) (build exec : Outcome) (s : Pipe)
    (hready : s.ready = []) :
    ((startProcess s.calls build "go".toList
        ["build".toList, "-v".toList, ".".toList] s.page).1 = false →
      (playground early build exec s).page
        = (startProcess s.calls build "go".toList
            ["build".toList, "-v".toList, ".".toList] s.page).2.settle
              (.reject s.futures.length) ∧
      (∃ evs, (playground early build exec s).page.trace
          = s.page.trace ++ evs ++ [(none, .reject s.futures.length)] ∧
        ∀ e ∈ evs, e.1 = some s.calls) ∧
      (playground early build exec s).calls = s.calls + 1 ∧
      (playground early build exec s).ready = [] ∧
      ((playground early build exec s).futures[s.futures.length]?).map (fun x => x.state)
        = some .rejected) ∧
    ((startProcess s.calls build "go".toList
        ["build".toList, "-v".toList, ".".toList] s.page).1 = true →
      ∃ evs rest, (playground early build exec s).page.trace
          = s.page.trace ++ evs
            ++ (none, .resolve s.futures.length) :: (none, .invoke s.futures.length) :: rest ∧
        (∀ e ∈ evs, e.1 = some s.calls) ∧
        (∀ e ∈ rest, e.1 = some (s.calls + 1) ∨ e.1 = none)) := by
  obtain ⟨hpage, hrd, hcalls, hfut⟩ := playground_page early build exec s hready
  obtain ⟨evs, hevs, htag⟩ := startProcess_events s.calls build "go".toList
    ["build".toList, "-v".toList, ".".toList] s.page
  constructor
  · intro hb
    rw [hb] at hcalls hfut
    refine ⟨?_, ⟨evs, ?_, htag⟩, by simpa using hcalls, hrd, by simpa using hfut⟩
    · rw [hpage]; simp only [pageAfter, hb, Bool.false_eq_true, if_false]
    · rw [hpage]; simp only [pageAfter, hb, Bool.false_eq_true, if_false, Page.settle, hevs]
  · intro hb
    obtain ⟨evs2, hevs2, htag2⟩ := startProcess_events (s.calls + 1) exec "./playground".toList []
      (((startProcess s.calls build "go".toList
        ["build".toList, "-v".toList, ".".toList] s.page).2.settle
          (.resolve s.futures.length)).settle (.invoke s.futures.length))
    refine ⟨evs, evs2 ++ [(none, if (startProcess (s.calls + 1) exec "./playground".toList []
      (((startProcess s.calls build "go".toList
        ["build".toList, "-v".toList, ".".toList] s.page).2.settle
          (.resolve s.futures.length)).settle (.invoke s.futures.length))).1
        then .resolve (s.futures.length + 1) else .reject (s.futures.length + 1))], ?_, htag, ?_⟩
    · rw [hpage]
      simp only [pageAfter, hb, if_true]
      simp only [Page.settle] at hevs2 ⊢
      rw [hevs2]
      simp only [hevs, List.append_assoc, List.cons_append, List.nil_append,
        List.singleton_append]
    · intro e he
      rcases List.mem_append.mp he with h | h
      · exact Or.inl (htag2 e h)
      · simp at h; subst h; exact Or.inr rfl

/-! ## The claims at concrete inputs -/

/-- Claim C1 at the destination root `..`: `validateZipPath` accepts the entry
name `../evil` and returns `../../evil`.  The returned path starts with the
cleaned root followed by the separator, but the part after that prefix is
`../evil`, which holds a `..` element: the path lies outside the root. -/
theorem validateZipPath_escapes_dotdot_root :
    validateZipPath "../evil".toList "..".toList = .ok "../../evil".toList ∧
    "../../evil".toList = Clean "..".toList ++ PathSeparator :: "../evil".toList ∧
    ['.', '.'] ∈ splitSep "../evil".toList := by
  decide

theorem validateZipPath_inside_witness :
    ∃ z, "/out/bin/tool".toList = Clean "/out".toList ++ PathSeparator :: z ∧
      ['.', '.'] ∉ splitSep z :=
  validateZipPath_inside "bin/tool".toList "/out".toList "/out/bin/tool".toList
    (by decide) (by decide)

/-- Claim C2 fails as stated: under the root `/go`, the entry name `a/../b`,
which contains a `..` element, is accepted and resolved to `/go/b`, and the
entry name `/etc/passwd`, which begins with the separator, is accepted and
resolved to `/go/etc/passwd`. -/
theorem validateZipPath_accepts_inner_dotdot_and_rooted_name :
    validateZipPath "a/../b".toList "/go".toList = .ok "/go/b".toList ∧
    validateZipPath "/etc/passwd".toList "/go".toList = .ok "/go/etc/passwd".toList := by
  decide

theorem validateZipPath_rejects_climb_witness :
    validateZipPath "../evil".toList "/out".toList = .error (.illegalPath "/evil".toList) :=
  validateZipPath_rejects_climb "/out".toList "evil".toList 1 (by decide) (by decide)
    (by decide)

theorem validateZipPath_rejects_escape_witness :
    validateZipPath "..".toList "/out".toList = .error (.illegalPath "/".toList) ∧
    validateZipPath "../evil".toList "/out".toList = .error (.illegalPath "/evil".toList) ∧
    validateZipPath "a/../../evil".toList "/out".toList
      = .error (.illegalPath "/evil".toList) ∧
    validateZipPath "../a/b".toList "/out".toList = .error (.illegalPath "/a/b".toList) ∧
    validateZipPath "/../evil".toList "/out".toList = .error (.illegalPath "/evil".toList) ∧
    validateZipPath "a/../b".toList "/go".toList = .ok "/go/b".toList ∧
    validateZipPath "/etc/passwd".toList "/go".toList = .ok "/go/etc/passwd".toList :=
  ⟨(validateZipPath_rejects_escape "..".toList "/out".toList).1 (by decide)
      (not_descendant _ _ (by decide)),
   (validateZipPath_rejects_escape "../evil".toList "/out".toList).1 (by decide)
      (not_descendant _ _ (by decide)),
   (validateZipPath_rejects_escape "a/../../evil".toList "/out".toList).1 (by decide)
      (not_descendant _ _ (by decide)),
   (validateZipPath_rejects_escape "../a/b".toList "/out".toList).1 (by decide)
      (not_descendant _ _ (by decide)),
   (validateZipPath_rejects_escape "/../evil".toList "/out".toList).1 (by decide)
      (not_descendant _ _ (by decide)),
   (validateZipPath_rejects_escape "a/../b".toList "/go".toList).2 (by decide) (by decide)
      ⟨by decide, ["b".toList], by decide, by decide, by decide⟩,
   (validateZipPath_rejects_escape "/etc/passwd".toList "/go".toList).2 (by decide) (by decide)
      ⟨by decide, ["etc".toList, "passwd".toList], by decide, by decide, by decide⟩⟩

theorem unzipFiles_fail_fast_witness :
    unzipFiles ([exBin, exTool] ++ exEvil :: [exLib, exData]) "/out".toList exWorld
      = (some (.illegalPath "/evil".toList), (unzipFiles [exBin, exTool] "/out".toList exWorld).2) ∧
    (unzipFiles ([exBin, exTool] ++ exEvil :: [exLib, exData]) "/out".toList exWorld).2.calls
      = [.mkdir "/out/bin".toList 0o755, .writeFile "/out/bin/tool".toList [1, 2, 3] 0o755] :=
  unzipFiles_fail_fast [exBin, exTool] [exLib, exData] exEvil "/out".toList exWorld
    (.illegalPath "/evil".toList) (by decide) (by decide)

/-- Claim C4 fails as stated: the archive with the two file entries
`bin/tool` and `lib/data.txt`, both with safe relative names, extracted into
the existing empty directory `/out`, makes `unzip` return `ENOENT`, and
`/out/bin/tool` does not exist afterwards: no entry creates `/out/bin`. -/
theorem unzip_fails_without_directory_entries :
    (∀ f ∈ [exTool, exData], SafeName f.Name) ∧
    exWorld.node "/out".toList = some (.dir 0o750) ∧
    (unzip (fun _ _ => .ok [exTool, exData]) [] 0 "/out".toList exWorld).1
      = some (.os "ENOENT") ∧
    (unzip (fun _ _ => .ok [exTool, exData]) [] 0 "/out".toList exWorld).2.node
      "/out/bin/tool".toList = none := by
  decide

theorem exWorld_empty (q : List Char)
    (h : (Clean "/out".toList ++ [PathSeparator]) <+: q) : exWorld.fs.lookup q = none := by
  have hc : Clean "/out".toList ++ [PathSeparator] = "/out/".toList := by decide
  rw [hc] at h
  obtain ⟨z, rfl⟩ := h
  simp [exWorld, List.lookup]

theorem unzip_wellLaid_witness :
    (unzip (fun _ _ => .ok [exBin, exTool, exLib, exData]) [] 0 "/out".toList exWorld).1 = none ∧
    (unzip (fun _ _ => .ok [exBin, exTool, exLib, exData]) [] 0 "/out".toList exWorld).2.node
      "/out/bin/tool".toList = some (.file 0o755 [1, 2, 3]) ∧
    (unzip (fun _ _ => .ok [exBin, exTool, exLib, exData]) [] 0 "/out".toList exWorld).2.node
      "/out/lib/data.txt".toList = some (.file 0o644 [4, 5]) :=
  have h := unzip_wellLaid (fun _ _ => .ok [exBin, exTool, exLib, exData]) [] 0 "/out".toList
    [exBin, exTool, exLib, exData] exWorld 0o750 (by decide) (by decide) (by decide)
    (by decide) exWorld_empty rfl rfl
    ⟨by decide, by decide, by decide, by decide, fun h => absurd h (by decide),
     by decide, by decide, by decide, by decide, fun _ => ⟨_, rfl⟩,
     by decide, by decide, by decide, by decide, fun h => absurd h (by decide),
     by decide, by decide, by decide, by decide, fun _ => ⟨_, rfl⟩, trivial⟩
  ⟨h.1, (h.2 exTool (by decide)).2, (h.2 exData (by decide)).2⟩

/-- Extraction fails where the operating system does: a file entry inside a
directory entry of mode 0 gives `EACCES`, and so does any entry inside a
directory made under the umask 0777; an entry name with a NUL byte gives
`EINVAL`; a write the environment refuses for want of space gives `ENOSPC`. -/
theorem unzip_fails_for_permissions_and_names :
    (unzip (fun _ _ => .ok [exClosed, exInside]) [] 0 "/out".toList exWorld).1
      = some (.os "EACCES") ∧
    (unzip (fun _ _ => .ok [exBin, exTool]) [] 0 "/out".toList
      { exWorld with umask := 0o777 }).1 = some (.os "EACCES") ∧
    (unzip (fun _ _ => .ok [exNul]) [] 0 "/out".toList exWorld).1 = some (.os "EINVAL") ∧
    (unzip (fun _ _ => .ok [exBin, exTool]) [] 0 "/out".toList
      { exWorld with refused := [(.writeFile "/out/bin/tool".toList [1, 2, 3] 0o755,
          .os "ENOSPC")] }).1 = some (.os "ENOSPC") := by
  decide

/-- Claim C5 fails as stated: an archive with the directory entry `bin/`
extracts into `/out` without error once; extracted a second time into the
same destination, `unzipFiles` returns `EEXIST`, the error `unzipFile` returns
for the directory entry whose resolved path `/out/bin` exists as a directory. -/
theorem unzip_twice_fails_on_directory :
    (unzipFiles [exBin] "/out".toList exWorld).1 = none ∧
    (unzipFiles [exBin] "/out".toList (unzipFiles [exBin] "/out".toList exWorld).2).1
      = some (.os "EEXIST") ∧
    ((unzipFiles [exBin] "/out".toList exWorld).2.node "/out/bin".toList) = some (.dir 0o755) ∧
    (unzipFile exBin "/out/bin".toList (unzipFiles [exBin] "/out".toList exWorld).2).1
      = some (.os "EEXIST") := by
  decide

theorem unzipFile_dir_not_idempotent_witness :
    unzipFile exBin "/out".toList exWorld
      = (some (.os "EEXIST"), exWorld.log (.mkdir "/out".toList 0o755)) ∧
    (unzipFiles [exBin, exTool] "/out".toList
      (unzipFiles [exBin, exTool] "/out".toList exWorld).2).1 ≠ none :=
  have h := unzipFile_dir_not_idempotent [exBin, exTool] "/out".toList exWorld exBin
    (by decide) rfl
  ⟨h.1 "/out".toList exWorld (by decide), h.2 (by decide)⟩

theorem single_flight_witness :
    exSys.holders ≤ 1 ∧ exSys.inFlight ≤ 1 ∧
    (exSys.page.showLoading = true ↔ ∃ c ∈ exSys.calls, c.pc.holding = true) ∧
    exSys.calls.map (fun c => c.pc) = [.running, .returned false] ∧
    exSys.page.trace = [(some 0, .cas true), (some 0, .classAdd),
      (some 0, .write .stdout "$ go build -v .\n".toList),
      (some 0, .start "go".toList ["build".toList, "-v".toList, ".".toList]),
      (some 1, .cas false)] :=
  have h := single_flight exCmds exSys
    (reachable_of_steps _ _ _ exSched Reachable.init (by decide))
  ⟨h.1, h.2.1, h.2.2.1, by decide, by decide⟩

theorem startProcess_acquired_witness :
    (startProcess 0 exBuildFails "go".toList ["build".toList] exPage).1 = false ∧
    (startProcess 0 exBuildFails "go".toList ["build".toList] exPage).2.showLoading = false ∧
    ((startProcess 0 exSuccess "go".toList ["build".toList] exPage).1 = true) ∧
    (∃ pre msg, diagnostic exBuildFails = some msg ∧
      (startProcess 0 exBuildFails "go".toList ["build".toList] exPage).2.trace
        = exPage.trace ++ pre
          ++ [(some 0, .write .stderr msg), (some 0, .store), (some 0, .classRemove)] ∧
      (some 0, Event.store) ∉ pre) :=
  have h := startProcess_acquired 0 exBuildFails "go".toList ["build".toList] exPage rfl
  have h2 := startProcess_acquired 0 exSuccess "go".toList ["build".toList] exPage rfl
  ⟨by decide, h.2.2, h2.1.mpr ⟨rfl, rfl⟩, h.2.1 (by decide)⟩

theorem build_failure_short_circuits_witness :
    (playground false exBuildFails exSuccess Pipe.init).page.trace
      = [(some 0, .cas true), (some 0, .classAdd),
         (some 0, .write .stdout "$ go build -v .\n".toList),
         (some 0, .start "go".toList ["build".toList, "-v".toList, ".".toList]),
         (some 0, .write .stderr "./main.go:3:1: syntax error".toList),
         (some 0, .write .stderr "exit status 2\n".toList),
         (some 0, .store), (some 0, .classRemove), (none, .reject 0)] ∧
    (playground false exBuildFails exSuccess Pipe.init).calls = 1 ∧
    (playground true exBuildFails exSuccess Pipe.init).page
      = (playground false exBuildFails exSuccess Pipe.init).page :=
  have h := (build_failure_short_circuits false exBuildFails exSuccess Pipe.init rfl).1
    (by decide)
  have h2 := (build_failure_short_circuits true exBuildFails exSuccess Pipe.init rfl).1
    (by decide)
  ⟨by rw [h.1]; decide, h.2.2.1, by rw [h.1, h2.1]⟩

/-- Claim C9 fails as stated: under the root `/go` the entry name `.`, whose
joined, cleaned path is the cleaned root, is rejected; under the root `/` the
entry name `a`, whose joined, cleaned path `/a` is a descendant of the root,
is rejected; and so is the entry name `a` under the root `.`. -/
theorem validateZipPath_rejects_root_and_top_roots :
    (Join (Clean "/go".toList ++ [PathSeparator]) ".".toList = Clean "/go".toList ∧
      validateZipPath ".".toList "/go".toList = .error (.illegalPath "/go".toList)) ∧
    (Descendant (Clean "/".toList) (Join (Clean "/".toList ++ [PathSeparator]) "a".toList) ∧
      validateZipPath "a".toList "/".toList = .error (.illegalPath "/a".toList)) ∧
    (Descendant (Clean ".".toList) (Join (Clean ".".toList ++ [PathSeparator]) "a".toList) ∧
      validateZipPath "a".toList ".".toList = .error (.illegalPath "a".toList)) :=
  ⟨by decide,
   ⟨⟨by decide, ["a".toList], by decide, by decide, by decide⟩, by decide⟩,
   ⟨⟨by decide, ["a".toList], by decide, by decide, by decide⟩, by decide⟩⟩

theorem validateZipPath_descendant_witness :
    validateZipPath "bin/tool".toList "/out".toList = .ok "/out/bin/tool".toList :=
  (validateZipPath_descendant "bin/tool".toList "/out".toList).1 (by decide) (by decide)
    ⟨by decide, ["bin".toList, "tool".toList], by decide, by decide, by decide⟩

theorem run_ignores_unzip_error_witness :
    (unzip exEnv.NewReader [80, 75] 2 "/go".toList exWorld).1
      = some (.os "zip: not a valid zip file") ∧
    (run exEnv exWorld).1 = none ∧
    Printed.err (some (.os "zip: not a valid zip file")) ∈ (run exEnv exWorld).2.printed :=
  ⟨by decide, run_ignores_unzip_error exEnv exWorld [80, 75] (.os "zip: not a valid zip file")
    [] (.dir 0o750) (by rfl) (by decide) (by decide) (by decide) (by decide)⟩

end Hackpad
